import Mathlib

/-!
Verification of the persistent property store in
src/native/src/core/resetprop/persist.rs.

The development is a shallow embedding of the Rust source.  The store has two
on-disk representations:

* container mode: all properties live in one protobuf file at
  /data/property/persistent_properties ("PERSIST_PROP"); the file decodes to a
  list of records (optional name, optional value), which the code sorts and
  binary-searches, and writes back whole via a temp-file-plus-rename protocol;
* flat-file mode: one file per property inside /data/property
  ("PERSIST_PROP_DIR"), content is the value.

The external serializer (quick_protobuf) is treated as a black box that either
yields the stored record list or fails ("corrupt"), matching the spec's
treatment of it as an opaque serializer.  The filesystem is modelled as a
state: an optional container file, a directory of flat entries, and counters
of leftover temporary files.  Each operation additionally returns the list of
filesystem events it performed, so that claims about which files an operation
touches can be stated directly.
-/

/-- Comparison of two characters by code point, which for UTF-8 encoded
strings coincides with Rust's byte-wise comparison of the encodings. -/
def charCmp (a b : Char) : Ordering :=
  if a < b then .lt else if a = b then .eq else .gt

/-- Lexicographic comparison of character sequences: the embedding of Rust's
str::cmp (byte-lexicographic on UTF-8, equal to code-point order). -/
def strCmpL : List Char → List Char → Ordering
  | [], [] => .eq
  | [], _ :: _ => .lt
  | _ :: _, [] => .gt
  | a :: as, b :: bs =>
    match charCmp a b with
    | .eq => strCmpL as bs
    | o => o

/-- Comparison of two strings as Rust's str::cmp compares them. -/
def strCmp (a b : String) : Ordering :=
  strCmpL a.data b.data

/-- Rust Option ordering (derived Ord on Option of str): None sorts before
Some, two Some compare by the inner strings.  This is the comparator used both
by the sort in proto_read_props and by binary_search_by in find_index. -/
def cmpOptStr : Option String → Option String → Ordering
  | none, none => .eq
  | none, some _ => .lt
  | some _, none => .gt
  | some a, some b => strCmp a b

/-- Record of the persistent_properties protobuf message: both fields are
optional on the wire. -/
structure PersistentPropertyRecord where
  name : Option String
  value : Option String
deriving Repr, DecidableEq, Inhabited

/-- Decoded container content, a sequence of records. -/
abbrev PersistentProperties := List PersistentPropertyRecord

/-- Sort comparator of proto_read_props, sort_unstable_by on a.name.cmp(b.name). -/
def recLeB (a b : PersistentPropertyRecord) : Bool :=
  cmpOptStr a.name b.name != Ordering.gt

/-- Sorting step performed by proto_read_props after decoding.  The Rust
sort_unstable_by is embedded as a comparison sort with the same comparator;
claims never depend on the order of records whose names compare equal. -/
def sortProps (ps : PersistentProperties) : PersistentProperties :=
  List.insertionSort (fun a b => recLeB a b = true) ps

/-- Loop of Rust slice binary_search_by: left and right bracket the search
window, mid is left + (right - left) / 2.  The fuel argument bounds the
number of iterations; with fuel at least right - left the embedding follows
the Rust loop exactly (each iteration shrinks the window by at least one). -/
def binarySearchGo {α : Type} [Inhabited α] (f : α → Ordering) (l : List α) :
    Nat → Nat → Nat → Except Nat Nat
  | 0, left, _ => .error left
  | fuel + 1, left, right =>
    if left < right then
      match f (l.getD (left + (right - left) / 2) default) with
      | .lt => binarySearchGo f l fuel (left + (right - left) / 2 + 1) right
      | .gt => binarySearchGo f l fuel left (left + (right - left) / 2)
      | .eq => .ok (left + (right - left) / 2)
    else
      .error left

/-- PropExt::find_index: binary_search_by over the record list comparing each
record's name with Some(name). -/
def find_index (ps : PersistentProperties) (n : String) : Except Nat Nat :=
  binarySearchGo (fun p => cmpOptStr p.name (some n)) ps ps.length 0 ps.length

/-- In-memory update performed by persist_set_prop on a hit:
props[idx].value = Some(value). -/
def setValueAt (ps : PersistentProperties) (idx : Nat) (v : String) :
    PersistentProperties :=
  ps.set idx { ps.getD idx default with value := some v }

/-- Content of the container file as the black-box serializer sees it: either
it decodes to a record list or decoding fails. -/
inductive ContainerData
  | good (props : PersistentProperties)
  | corrupt
deriving Repr, DecidableEq

/-- Filesystem state visible to the store: the optional container file, the
flat-file directory (list of name-value entries, in directory order), and the
numbers of leftover temporary files next to the container and next to the
directory. -/
structure SysState where
  container : Option ContainerData
  flat : List (String × String)
  tmps : Nat
  flatTmps : Nat
deriving Repr, DecidableEq

/-- Injected environment failures for one write operation: mkstemp failing,
the encode/write of the temp file failing, or a simulated crash after the
temp file is fully written but before the final rename. -/
structure FailSpec where
  mkstempFail : Bool
  writeFail : Bool
  crashBeforeRename : Bool
deriving Repr, DecidableEq

/-- Environment in which every step succeeds. -/
def noFail : FailSpec := ⟨false, false, false⟩

/-- Filesystem events an operation can perform, recorded so that claims about
which files are consulted can be stated.  checkProto is the existence test of
the container path that selects the mode. -/
inductive Ev
  | checkProto
  | readContainer
  | createTmpContainer
  | encodeTmp
  | cloneAttr
  | renameContainer
  | readFlat (n : String)
  | createTmpFlat
  | writeTmpFlat
  | renameFlat (n : String)
  | unlinkFlat (n : String)
  | listFlatDir
deriving Repr, DecidableEq

/-- Predicate for events that touch flat-file directory entries. -/
def Ev.isFlat : Ev → Bool
  | .readFlat _ => true
  | .createTmpFlat => true
  | .writeTmpFlat => true
  | .renameFlat _ => true
  | .unlinkFlat _ => true
  | .listFlatDir => true
  | _ => false

/-- Predicate for events that read or write container data (the existence
check of the container path is not a data access). -/
def Ev.isCont : Ev → Bool
  | .readContainer => true
  | .createTmpContainer => true
  | .encodeTmp => true
  | .cloneAttr => true
  | .renameContainer => true
  | _ => false

/-- Success test on a result, as is_ok collapses a LoggedResult to a bool. -/
def exOk : Except Unit Unit → Bool
  | .ok _ => true
  | .error _ => false

/-- check_proto: does the container file exist (Path::exists)? -/
def check_proto (s : SysState) : Bool :=
  s.container.isSome

/-- proto_read_props: map the container file and decode it, then sort the
records by name.  Fails if the file is missing or does not decode. -/
def proto_read_props (s : SysState) : Except Unit PersistentProperties :=
  match s.container with
  | none => .error ()
  | some .corrupt => .error ()
  | some (.good ps) => .ok (sortProps ps)

/-- proto_write_props: mkstemp a uniquely named temp file next to the
container, encode the whole record list into it, clone_attr from the old
container (its result is ignored by the source), then rename over the
container path.  On mkstemp failure nothing was created; on a later failure
or crash the temp file is left behind (the source never unlinks it) and the
container is untouched. -/
def proto_write_props (props : PersistentProperties) (f : FailSpec)
    (s : SysState) : Except Unit Unit × SysState × List Ev :=
  if f.mkstempFail then
    (.error (), s, [.createTmpContainer])
  else if f.writeFail then
    (.error (), { s with tmps := s.tmps + 1 }, [.createTmpContainer, .encodeTmp])
  else if f.crashBeforeRename then
    (.error (), { s with tmps := s.tmps + 1 },
      [.createTmpContainer, .encodeTmp, .cloneAttr])
  else
    (.ok (), { s with container := some (.good props) },
      [.createTmpContainer, .encodeTmp, .cloneAttr, .renameContainer])

/-- Lookup of a flat directory entry by file name. -/
def lookupFlat (fl : List (String × String)) (n : String) : Option String :=
  (fl.find? (fun e => e.1 == n)).map (fun e => e.2)

/-- Effect of renaming a fully written temp file over dir/name: replace the
entry if it exists, otherwise create it. -/
def setFlat : List (String × String) → String → String → List (String × String)
  | [], n, v => [(n, v)]
  | e :: t, n, v => if e.1 = n then (n, v) :: t else e :: setFlat t n v

/-- Effect of remove_file on dir/name. -/
def removeFlat (fl : List (String × String)) (n : String) :
    List (String × String) :=
  fl.filter (fun e => e.1 != n)

/-- file_get_prop: read_to_string of dir/name; NotFound if absent. -/
def file_get_prop (n : String) (s : SysState) : Except Unit String × List Ev :=
  match lookupFlat s.flat n with
  | some v => (.ok v, [.readFlat n])
  | none => (.error (), [.readFlat n])

/-- file_set_prop: with Some value, mkstemp a temp file (template is the flat
directory path with suffix .prop.XXXXXX, hence a sibling of the directory),
write the value, and rename it over dir/name; with None, remove_file dir/name,
failing if the entry does not exist. -/
def file_set_prop (n : String) (v : Option String) (f : FailSpec)
    (s : SysState) : Except Unit Unit × SysState × List Ev :=
  match v with
  | some v =>
    if f.mkstempFail then
      (.error (), s, [.createTmpFlat])
    else if f.writeFail then
      (.error (), { s with flatTmps := s.flatTmps + 1 },
        [.createTmpFlat, .writeTmpFlat])
    else if f.crashBeforeRename then
      (.error (), { s with flatTmps := s.flatTmps + 1 },
        [.createTmpFlat, .writeTmpFlat])
    else
      (.ok (), { s with flat := setFlat s.flat n v },
        [.createTmpFlat, .writeTmpFlat, .renameFlat n])
  | none =>
    match lookupFlat s.flat n with
    | some _ =>
      (.ok (), { s with flat := removeFlat s.flat n }, [.unlinkFlat n])
    | none => (.error (), s, [.unlinkFlat n])

/-- persist_get_prop: in container mode decode, find the record, and invoke
the callback when both name and value are present; otherwise read the flat
file and invoke the callback with its content.  The returned list is the
sequence of callback invocations. -/
def persist_get_prop (n : String) (s : SysState) :
    List (String × String) × List Ev :=
  if check_proto s then
    match proto_read_props s with
    | .error _ => ([], [.checkProto, .readContainer])
    | .ok props =>
      match find_index props n with
      | .ok idx =>
        match (props.getD idx default).name, (props.getD idx default).value with
        | some n', some v => ([(n', v)], [.checkProto, .readContainer])
        | _, _ => ([], [.checkProto, .readContainer])
      | .error _ => ([], [.checkProto, .readContainer])
  else
    match file_get_prop n s with
    | (.ok v, ev) => ([(n, v)], .checkProto :: ev)
    | (.error _, ev) => ([], .checkProto :: ev)

/-- Callback invocations of the container branch of persist_get_props: one
per record whose name and value are both present, in list order. -/
def liveCalls (props : PersistentProperties) : List (String × String) :=
  props.filterMap (fun p =>
    match p.name, p.value with
    | some n, some v => some (n, v)
    | _, _ => none)

/-- persist_get_props: in container mode decode and walk the sorted records;
in flat mode list the directory and, for every entry that reads back
successfully, invoke the callback (failing entries are skipped). -/
def persist_get_props (s : SysState) : List (String × String) × List Ev :=
  if check_proto s then
    match proto_read_props s with
    | .error _ => ([], [.checkProto, .readContainer])
    | .ok props => (liveCalls props, [.checkProto, .readContainer])
  else
    (s.flat.filterMap (fun e => (lookupFlat s.flat e.1).map (fun v => (e.1, v))),
      .checkProto :: .listFlatDir :: s.flat.map (fun e => .readFlat e.1))

/-- persist_delete_prop: in container mode decode, binary-search the name, on
a hit remove the record and write the list back, on a miss fail without
writing; in flat mode unlink dir/name. -/
def persist_delete_prop (n : String) (f : FailSpec) (s : SysState) :
    Bool × SysState × List Ev :=
  if check_proto s then
    match proto_read_props s with
    | .error _ => (false, s, [.checkProto, .readContainer])
    | .ok props =>
      match find_index props n with
      | .ok idx =>
        match proto_write_props (props.eraseIdx idx) f s with
        | (r, s', ev) => (exOk r, s', .checkProto :: .readContainer :: ev)
      | .error _ => (false, s, [.checkProto, .readContainer])
  else
    match file_set_prop n none f s with
    | (r, s', ev) => (exOk r, s', .checkProto :: ev)

/-- persist_set_prop: in container mode decode, binary-search the name, on a
hit overwrite the record's value, on a miss insert a new record at the
returned insertion point, and write the list back; in flat mode write the
flat file. -/
def persist_set_prop (n v : String) (f : FailSpec) (s : SysState) :
    Bool × SysState × List Ev :=
  if check_proto s then
    match proto_read_props s with
    | .error _ => (false, s, [.checkProto, .readContainer])
    | .ok props =>
      match proto_write_props
          (match find_index props n with
            | .ok idx => setValueAt props idx v
            | .error idx => props.insertIdx idx ⟨some n, some v⟩) f s with
      | (r, s', ev) => (exOk r, s', .checkProto :: .readContainer :: ev)
  else
    match file_set_prop n (some v) f s with
    | (r, s', ev) => (exOk r, s', .checkProto :: ev)

/-- Continuation-byte test of UTF-8. -/
def isContB (b : Nat) : Bool :=
  0x80 ≤ b && b < 0xC0

/-- Modelled from the spec: the public entry points receive name and value as
raw null-terminated byte buffers, and the conversion and validation against
foreign text happens at the FFI boundary (Utf8CStr::from_ptr of the base
crate, which is not part of the core source).  The spec requires the bytes to
be valid UTF-8 text; this is the standard strict UTF-8 decoder (rejecting
overlong forms, surrogates and code points above U+10FFFF). -/
def utf8DecodeL : List Nat → Option (List Char)
  | [] => some []
  | b1 :: t1 =>
    if b1 < 0x80 then
      (utf8DecodeL t1).map (fun cs => Char.ofNat b1 :: cs)
    else if 0xC2 ≤ b1 && b1 < 0xE0 then
      match t1 with
      | b2 :: t2 =>
        if isContB b2 then
          (utf8DecodeL t2).map
            (fun cs => Char.ofNat ((b1 - 0xC0) * 0x40 + (b2 - 0x80)) :: cs)
        else none
      | [] => none
    else if 0xE0 ≤ b1 && b1 < 0xF0 then
      match t1 with
      | b2 :: b3 :: t3 =>
        if isContB b2 && isContB b3 && !(b1 == 0xE0 && b2 < 0xA0) &&
            !(b1 == 0xED && 0xA0 ≤ b2) then
          (utf8DecodeL t3).map
            (fun cs =>
              Char.ofNat
                ((b1 - 0xE0) * 0x1000 + (b2 - 0x80) * 0x40 + (b3 - 0x80)) :: cs)
        else none
      | _ => none
    else if 0xF0 ≤ b1 && b1 < 0xF5 then
      match t1 with
      | b2 :: b3 :: b4 :: t4 =>
        if isContB b2 && isContB b3 && isContB b4 && !(b1 == 0xF0 && b2 < 0x90) &&
            !(b1 == 0xF4 && 0x90 ≤ b2) then
          (utf8DecodeL t4).map
            (fun cs =>
              Char.ofNat
                ((b1 - 0xF0) * 0x40000 + (b2 - 0x80) * 0x1000 +
                  (b3 - 0x80) * 0x40 + (b4 - 0x80)) :: cs)
        else none
      | _ => none
    else none

/-- Modelled from the spec: boundary validation of a raw byte buffer as UTF-8
text (see utf8DecodeL). -/
def utf8Decode (bs : List Nat) : Option String :=
  (utf8DecodeL bs).map (fun cs => ⟨cs⟩)

/-- persist_set_prop as seen at the FFI boundary: both raw buffers are
validated (name first, then value) before anything else happens. -/
def persist_set_prop_raw (rawName rawValue : List Nat) (f : FailSpec)
    (s : SysState) : Bool × SysState × List Ev :=
  match utf8Decode rawName with
  | none => (false, s, [])
  | some n =>
    match utf8Decode rawValue with
    | none => (false, s, [])
    | some v => persist_set_prop n v f s

/-- persist_delete_prop as seen at the FFI boundary: the raw name buffer is
validated before anything else happens. -/
def persist_delete_prop_raw (rawName : List Nat) (f : FailSpec) (s : SysState) :
    Bool × SysState × List Ev :=
  match utf8Decode rawName with
  | none => (false, s, [])
  | some n => persist_delete_prop n f s

/-- The four public operations of the store facade. -/
inductive POp
  | getProp (n : String)
  | getAll
  | setProp (n v : String)
  | deleteProp (n : String)

/-- Observable outcome of one public operation: the returned boolean (true
for the get operations, which return nothing), the callback invocations, the
resulting filesystem state and the performed events. -/
structure OpOut where
  ok : Bool
  calls : List (String × String)
  state : SysState
  trace : List Ev

/-- Dispatch of the store facade. -/
def runOp (op : POp) (f : FailSpec) (s : SysState) : OpOut :=
  match op with
  | .getProp n =>
    match persist_get_prop n s with
    | (c, ev) => ⟨true, c, s, ev⟩
  | .getAll =>
    match persist_get_props s with
    | (c, ev) => ⟨true, c, s, ev⟩
  | .setProp n v =>
    match persist_set_prop n v f s with
    | (r, s', ev) => ⟨r, [], s', ev⟩
  | .deleteProp n =>
    match persist_delete_prop n f s with
    | (r, s', ev) => ⟨r, [], s', ev⟩

/-- Mutating operations for sequences of sets and deletes. -/
inductive MutOp
  | set (n v : String)
  | del (n : String)

/-- Run one mutating operation under an injected-failure environment. -/
def runMut (m : MutOp × FailSpec) (s : SysState) : SysState :=
  match m.1 with
  | .set n v => (persist_set_prop n v m.2 s).2.1
  | .del n => (persist_delete_prop n m.2 s).2.1

/-- Run a sequence of mutating operations. -/
def runMuts (ops : List (MutOp × FailSpec)) (s : SysState) : SysState :=
  ops.foldl (fun s m => runMut m s) s

/-- Run a sequence of persist_set_prop calls in a failure-free environment,
also recording whether every call reported success. -/
def runSetsOk (ws : List (String × String)) (s : SysState) : Bool × SysState :=
  ws.foldl
    (fun acc nv =>
      match persist_set_prop nv.1 nv.2 noFail acc.2 with
      | (r, s', _) => (acc.1 && r, s'))
    (true, s)

/-- Final state of a sequence of persist_set_prop calls. -/
def runSets (ws : List (String × String)) (s : SysState) : SysState :=
  (runSetsOk ws s).2

/-- Last value written for a name by a sequence of writes. -/
def lastVal (ws : List (String × String)) (n : String) : Option String :=
  ws.foldl (fun acc e => if e.1 = n then some e.2 else acc) none

/-- PERSIST_PROP_DIR of the source. -/
def PERSIST_PROP_DIR : String := "/data/property"

/-- PERSIST_PROP of the source. -/
def PERSIST_PROP : String := PERSIST_PROP_DIR ++ "/persistent_properties"

/-- mkstemp template used by file_set_prop. -/
def flatTmpTemplate : String := PERSIST_PROP_DIR ++ ".prop.XXXXXX"

/-- mkstemp template used by proto_write_props. -/
def protoTmpTemplate : String := PERSIST_PROP ++ ".XXXXXX"

/-- Path produced by mkstemp from a template: the six trailing placeholder
characters are replaced by a unique suffix. -/
def mkstempPath (template suffix : String) : String :=
  ⟨template.data.take (template.data.length - 6) ++ suffix.data⟩

/-- Rename target of file_set_prop, dir joined with the property name. -/
def flatTargetPath (n : String) : String :=
  PERSIST_PROP_DIR ++ "/" ++ n

/-- A path lies inside a directory when the directory path followed by the
separator is a prefix of it. -/
def insideDir (dir p : String) : Bool :=
  List.isPrefixOf (dir ++ "/").data p.data

/-- Strictly-sorted-by-name predicate on record lists: the index invariant of
the spec (strictly increasing names, no duplicates). -/
def SortedNames (ps : PersistentProperties) : Prop :=
  List.Pairwise (fun a b => cmpOptStr a.name b.name = Ordering.lt) ps

/-- Two records do not carry the same present name. -/
def PNdistinct (p q : PersistentPropertyRecord) : Prop :=
  ∀ n : String, p.name = some n → q.name = some n → False

/-- Distinct present names across a record list. -/
def WFProps (ps : PersistentProperties) : Prop :=
  List.Pairwise PNdistinct ps

/-- Well-formed store state: a decodable container carries pairwise distinct
present names (the store invariant); any other state is unconstrained. -/
def WFState (s : SysState) : Prop :=
  match s.container with
  | some (.good ps) => WFProps ps
  | _ => True

/-- Name present in the durable store as the operations see it. -/
def present (s : SysState) (n : String) : Prop :=
  match s.container with
  | some (.good ps) => ∃ p ∈ ps, p.name = some n
  | some .corrupt => False
  | none => (lookupFlat s.flat n).isSome = true

/-- Empty container-mode state: the container exists and decodes to no
records. -/
def protoEmptyState : SysState := ⟨some (.good []), [], 0, 0⟩

/-- Empty flat-mode state: no container file, empty directory. -/
def flatEmptyState : SysState := ⟨none, [], 0, 0⟩

/-- Record list fixture with two distinct names. -/
def exPs : PersistentProperties :=
  [⟨some "a", some "1"⟩, ⟨some "b", some "2"⟩]

/-- Container-mode state fixture. -/
def stC : SysState := ⟨some (.good exPs), [("x", "9")], 0, 0⟩

/-- Container-mode state fixture whose records carry a duplicated name. -/
def stDupC : SysState :=
  ⟨some (.good [⟨some "a", some "1"⟩, ⟨some "a", some "2"⟩]), [], 0, 0⟩

/-- Flat-mode state fixture. -/
def stF : SysState := ⟨none, [("a", "1")], 0, 0⟩

/-- Failure environment in which the temp-file write (encode) fails. -/
def failEncode : FailSpec := ⟨false, true, false⟩

/-- Failure environment simulating a crash after the temp file is written but
before the rename. -/
def failCrash : FailSpec := ⟨false, false, true⟩


/-!
Comparator lemmas.
-/

theorem charCmp_eq_iff {a b : Char} : charCmp a b = .eq ↔ a = b := by
  unfold charCmp
  rcases lt_trichotomy a b with h | h | h
  · rw [if_pos h]
    exact iff_of_false (fun hc => by cases hc) (ne_of_lt h)
  · subst h
    rw [if_neg (lt_irrefl a), if_pos rfl]
    simp
  · rw [if_neg (lt_asymm h), if_neg (ne_of_gt h)]
    exact iff_of_false (fun hc => by cases hc) (ne_of_gt h)

theorem charCmp_lt_iff {a b : Char} : charCmp a b = .lt ↔ a < b := by
  unfold charCmp
  rcases lt_trichotomy a b with h | h | h
  · simp [h]
  · subst h
    rw [if_neg (lt_irrefl a), if_pos rfl]
    exact iff_of_false (fun hc => by cases hc) (lt_irrefl a)
  · rw [if_neg (lt_asymm h), if_neg (ne_of_gt h)]
    exact iff_of_false (fun hc => by cases hc) (lt_asymm h)

theorem charCmp_swap (a b : Char) : charCmp b a = (charCmp a b).swap := by
  unfold charCmp
  rcases lt_trichotomy a b with h | h | h
  · rw [if_pos h, if_neg (lt_asymm h), if_neg (ne_of_gt h)]
    rfl
  · subst h
    rw [if_neg (lt_irrefl a), if_pos rfl]
    rfl
  · rw [if_pos h, if_neg (lt_asymm h), if_neg (ne_of_gt h)]
    rfl

theorem charCmp_lt_trans {a b c : Char} (h₁ : charCmp a b = .lt)
    (h₂ : charCmp b c = .lt) : charCmp a c = .lt := by
  rw [charCmp_lt_iff] at h₁ h₂ ⊢
  exact lt_trans h₁ h₂

theorem strCmpL_eq_iff : ∀ {l₁ l₂ : List Char}, strCmpL l₁ l₂ = .eq ↔ l₁ = l₂
  | [], [] => by simp [strCmpL]
  | [], _ :: _ => by simp [strCmpL]
  | _ :: _, [] => by simp [strCmpL]
  | a :: as, b :: bs => by
    rw [strCmpL]
    cases h : charCmp a b with
    | eq =>
      have hab : a = b := charCmp_eq_iff.mp h
      simp [hab, strCmpL_eq_iff]
    | lt =>
      have hab : ¬a = b := fun he => by
        rw [charCmp_eq_iff.mpr he] at h; cases h
      simp [hab]
    | gt =>
      have hab : ¬a = b := fun he => by
        rw [charCmp_eq_iff.mpr he] at h; cases h
      simp [hab]

theorem strCmpL_swap : ∀ (l₁ l₂ : List Char), strCmpL l₂ l₁ = (strCmpL l₁ l₂).swap
  | [], [] => rfl
  | [], _ :: _ => rfl
  | _ :: _, [] => rfl
  | a :: as, b :: bs => by
    rw [strCmpL, strCmpL, charCmp_swap]
    cases h : charCmp a b with
    | eq => simpa using strCmpL_swap as bs
    | lt => rfl
    | gt => rfl

theorem strCmpL_lt_trans :
    ∀ {l₁ l₂ l₃ : List Char}, strCmpL l₁ l₂ = .lt → strCmpL l₂ l₃ = .lt →
      strCmpL l₁ l₃ = .lt
  | [], [], _ => fun h _ => by cases h
  | [], _ :: _, [] => fun _ h => by cases h
  | [], _ :: _, _ :: _ => fun _ _ => rfl
  | _ :: _, [], _ => fun h _ => by cases h
  | _ :: _, _ :: _, [] => fun _ h => by cases h
  | a :: as, b :: bs, c :: cs => by
    cases hab : charCmp a b with
    | gt => intro h _; rw [strCmpL, hab] at h; cases h
    | lt =>
      cases hbc : charCmp b c with
      | gt => intro _ h; rw [strCmpL, hbc] at h; cases h
      | lt =>
        intro _ _
        rw [strCmpL, charCmp_lt_trans hab hbc]
      | eq =>
        intro _ _
        have hbc' : b = c := charCmp_eq_iff.mp hbc
        subst hbc'
        rw [strCmpL, hab]
    | eq =>
      have hab' : a = b := charCmp_eq_iff.mp hab
      subst hab'
      cases hbc : charCmp a c with
      | gt => intro _ h; rw [strCmpL, hbc] at h; cases h
      | lt =>
        intro _ _
        rw [strCmpL, hbc]
      | eq =>
        intro h₁ h₂
        rw [strCmpL, hab] at h₁
        rw [strCmpL, hbc] at h₂
        rw [strCmpL, hbc]
        exact strCmpL_lt_trans h₁ h₂

theorem strCmp_eq_iff {a b : String} : strCmp a b = .eq ↔ a = b := by
  unfold strCmp
  rw [strCmpL_eq_iff]
  constructor
  · intro h
    cases a
    cases b
    exact congrArg String.mk h
  · intro h
    rw [h]

theorem strCmp_swap (a b : String) : strCmp b a = (strCmp a b).swap :=
  strCmpL_swap a.data b.data

theorem strCmp_lt_trans {a b c : String} (h₁ : strCmp a b = .lt)
    (h₂ : strCmp b c = .lt) : strCmp a c = .lt :=
  strCmpL_lt_trans h₁ h₂

theorem cmpOptStr_eq_iff {x y : Option String} : cmpOptStr x y = .eq ↔ x = y := by
  cases x with
  | none =>
    cases y with
    | none => exact iff_of_true rfl rfl
    | some b => exact iff_of_false (fun hc => by cases hc) (fun hc => by cases hc)
  | some a =>
    cases y with
    | none => exact iff_of_false (fun hc => by cases hc) (fun hc => by cases hc)
    | some b =>
      rw [show cmpOptStr (some a) (some b) = strCmp a b from rfl, strCmp_eq_iff]
      exact ⟨fun h => by rw [h], fun h => by injection h⟩

theorem cmpOptStr_swap (x y : Option String) :
    cmpOptStr y x = (cmpOptStr x y).swap := by
  cases x with
  | none =>
    cases y with
    | none => rfl
    | some b => rfl
  | some a =>
    cases y with
    | none => rfl
    | some b => exact strCmp_swap a b

theorem cmpOptStr_lt_trans :
    ∀ {x y z : Option String}, cmpOptStr x y = .lt → cmpOptStr y z = .lt →
      cmpOptStr x z = .lt
  | none, none, _ => fun h _ => by cases h
  | none, some _, none => fun _ h => by cases h
  | none, some _, some _ => fun _ _ => rfl
  | some _, none, _ => fun h _ => by cases h
  | some _, some _, none => fun _ h => by cases h
  | some a, some b, some c => fun h₁ h₂ => strCmp_lt_trans h₁ h₂

theorem cmpOptStr_refl (x : Option String) : cmpOptStr x x = .eq :=
  cmpOptStr_eq_iff.mpr rfl

theorem cmpOptStr_gt_iff_lt {x y : Option String} :
    cmpOptStr x y = .gt ↔ cmpOptStr y x = .lt := by
  rw [cmpOptStr_swap y x]
  cases h : cmpOptStr y x <;> simp [Ordering.swap]

theorem cmpOptStr_le_lt_trans {x y z : Option String}
    (h₁ : cmpOptStr x y ≠ .gt) (h₂ : cmpOptStr y z = .lt) :
    cmpOptStr x z = .lt := by
  cases h : cmpOptStr x y with
  | gt => exact absurd h h₁
  | eq => rw [cmpOptStr_eq_iff.mp h]; exact h₂
  | lt => exact cmpOptStr_lt_trans h h₂

theorem cmpOptStr_lt_le_trans {x y z : Option String}
    (h₁ : cmpOptStr x y = .lt) (h₂ : cmpOptStr y z ≠ .gt) :
    cmpOptStr x z = .lt := by
  cases h : cmpOptStr y z with
  | gt => exact absurd h h₂
  | eq => rw [← cmpOptStr_eq_iff.mp h]; exact h₁
  | lt => exact cmpOptStr_lt_trans h₁ h

theorem cmpOptStr_le_trans {x y z : Option String}
    (h₁ : cmpOptStr x y ≠ .gt) (h₂ : cmpOptStr y z ≠ .gt) :
    cmpOptStr x z ≠ .gt := by
  cases h : cmpOptStr x y with
  | gt => exact absurd h h₁
  | eq => rw [cmpOptStr_eq_iff.mp h]; exact h₂
  | lt =>
    rw [cmpOptStr_lt_le_trans h h₂]
    intro hc
    cases hc

theorem cmpOptStr_lt_ne_gt {x y : Option String} (h : cmpOptStr x y = .lt) :
    cmpOptStr x y ≠ .gt := by
  rw [h]
  intro hc
  cases hc

theorem cmpOptStr_total (x y : Option String) :
    cmpOptStr x y ≠ .gt ∨ cmpOptStr y x ≠ .gt := by
  cases h : cmpOptStr x y with
  | gt =>
    right
    rw [cmpOptStr_gt_iff_lt] at h
    exact cmpOptStr_lt_ne_gt h
  | eq => left; intro hc; cases hc
  | lt => left; intro hc; cases hc

/-!
Sorting lemmas.
-/

theorem recLeB_iff {a b : PersistentPropertyRecord} :
    recLeB a b = true ↔ cmpOptStr a.name b.name ≠ .gt := by
  unfold recLeB
  cases h : cmpOptStr a.name b.name <;> decide

theorem sortProps_sorted (ps : PersistentProperties) :
    List.Sorted (fun a b => recLeB a b = true) (sortProps ps) := by
  haveI ht : IsTrans PersistentPropertyRecord (fun a b => recLeB a b = true) :=
    ⟨fun a b c h₁ h₂ =>
      recLeB_iff.mpr (cmpOptStr_le_trans (recLeB_iff.mp h₁) (recLeB_iff.mp h₂))⟩
  haveI hto : IsTotal PersistentPropertyRecord (fun a b => recLeB a b = true) :=
    ⟨fun a b => by
      rcases cmpOptStr_total a.name b.name with h | h
      · exact Or.inl (recLeB_iff.mpr h)
      · exact Or.inr (recLeB_iff.mpr h)⟩
  exact List.sorted_insertionSort _ ps

theorem sortProps_perm (ps : PersistentProperties) : (sortProps ps).Perm ps :=
  List.perm_insertionSort _ ps

theorem sortedNames_le {ps : PersistentProperties} (h : SortedNames ps) :
    List.Sorted (fun a b => recLeB a b = true) ps :=
  h.imp (fun hab => recLeB_iff.mpr (cmpOptStr_lt_ne_gt hab))

theorem sortProps_eq_of_sortedNames {ps : PersistentProperties}
    (h : SortedNames ps) : sortProps ps = ps :=
  List.Sorted.insertionSort_eq (sortedNames_le h)

/-!
Binary search lemmas.
-/

theorem binarySearchGo_ok {α : Type} [Inhabited α] (f : α → Ordering)
    (l : List α) :
    ∀ fuel left right i, right ≤ l.length →
      binarySearchGo f l fuel left right = .ok i →
      i < l.length ∧ f (l.getD i default) = .eq := by
  intro fuel
  induction fuel with
  | zero =>
    intro left right i _ h
    cases h
  | succ fuel ih =>
    intro left right i hr h
    rw [binarySearchGo] at h
    by_cases hlr : left < right
    · rw [if_pos hlr] at h
      have h0 : 0 < right - left := by omega
      have hd : (right - left) / 2 < right - left := Nat.div_lt_self h0 (by omega)
      have hmlt : left + (right - left) / 2 < right := by omega
      cases hf : f (l.getD (left + (right - left) / 2) default) with
      | lt =>
        rw [hf] at h
        exact ih _ _ _ hr h
      | gt =>
        rw [hf] at h
        exact ih _ _ _ (by omega) h
      | eq =>
        rw [hf] at h
        injection h with h
        subst h
        exact ⟨by omega, hf⟩
    · rw [if_neg hlr] at h
      cases h

theorem binarySearchGo_err {α : Type} [Inhabited α] (f : α → Ordering)
    (l : List α)
    (hlt : ∀ i j, i ≤ j → j < l.length → f (l.getD j default) = .lt →
      f (l.getD i default) = .lt)
    (hgt : ∀ i j, i ≤ j → j < l.length → f (l.getD i default) = .gt →
      f (l.getD j default) = .gt) :
    ∀ fuel left right p, right - left ≤ fuel → left ≤ right → right ≤ l.length →
      (∀ j, j < left → j < l.length → f (l.getD j default) = .lt) →
      (∀ j, right ≤ j → j < l.length → f (l.getD j default) = .gt) →
      binarySearchGo f l fuel left right = .error p →
      p ≤ l.length ∧
      (∀ j, j < p → j < l.length → f (l.getD j default) = .lt) ∧
      (∀ j, p ≤ j → j < l.length → f (l.getD j default) = .gt) := by
  intro fuel
  induction fuel with
  | zero =>
    intro left right p hfu hle hr hlo hhi h
    rw [binarySearchGo] at h
    injection h with h
    subst h
    exact ⟨by omega, hlo, fun j hj hjl => hhi j (by omega) hjl⟩
  | succ fuel ih =>
    intro left right p hfu hle hr hlo hhi h
    rw [binarySearchGo] at h
    by_cases hlr : left < right
    · rw [if_pos hlr] at h
      have h0 : 0 < right - left := by omega
      have hd : (right - left) / 2 < right - left := Nat.div_lt_self h0 (by omega)
      have hmlt : left + (right - left) / 2 < right := by omega
      have hmlen : left + (right - left) / 2 < l.length := by omega
      cases hf : f (l.getD (left + (right - left) / 2) default) with
      | lt =>
        rw [hf] at h
        refine ih _ _ _ (by omega) (by omega) hr ?_ hhi h
        intro j hj hjl
        rcases Nat.lt_or_ge j left with hjl' | hjl'
        · exact hlo j hjl' hjl
        · exact hlt j _ (by omega) hmlen hf
      | gt =>
        rw [hf] at h
        refine ih _ _ _ (by omega) (by omega) (by omega) hlo ?_ h
        intro j hj hjl
        exact hgt _ j hj hjl hf
      | eq =>
        rw [hf] at h
        cases h
    · rw [if_neg hlr] at h
      injection h with h
      subst h
      exact ⟨by omega, hlo, fun j hj hjl => hhi j (by omega) hjl⟩

theorem find_index_ok {ps : PersistentProperties} {n : String} {idx : Nat}
    (h : find_index ps n = .ok idx) :
    idx < ps.length ∧ (ps.getD idx default).name = some n := by
  unfold find_index at h
  have := binarySearchGo_ok
    (fun q : PersistentPropertyRecord => cmpOptStr q.name (some n)) ps
    ps.length 0 ps.length idx (le_refl _) h
  exact ⟨this.1, cmpOptStr_eq_iff.mp this.2⟩

theorem sorted_cmp_mono_lt {ps : PersistentProperties}
    (hs : List.Sorted (fun a b => recLeB a b = true) ps) (n : String) :
    ∀ i j, i ≤ j → j < ps.length →
      cmpOptStr (ps.getD j default).name (some n) = .lt →
      cmpOptStr (ps.getD i default).name (some n) = .lt := by
  intro i j hij hj hlt
  rcases Nat.eq_or_lt_of_le hij with he | hij'
  · subst he; exact hlt
  · have hi : i < ps.length := lt_trans hij' hj
    have hpair := List.pairwise_iff_getElem.mp hs i j hi hj hij'
    rw [List.getD_eq_getElem _ _ hi, List.getD_eq_getElem _ _ hj] at *
    exact cmpOptStr_le_lt_trans (recLeB_iff.mp hpair) hlt

theorem sorted_cmp_mono_gt {ps : PersistentProperties}
    (hs : List.Sorted (fun a b => recLeB a b = true) ps) (n : String) :
    ∀ i j, i ≤ j → j < ps.length →
      cmpOptStr (ps.getD i default).name (some n) = .gt →
      cmpOptStr (ps.getD j default).name (some n) = .gt := by
  intro i j hij hj hgt
  rcases Nat.eq_or_lt_of_le hij with he | hij'
  · subst he; exact hgt
  · have hi : i < ps.length := lt_trans hij' hj
    have hpair := List.pairwise_iff_getElem.mp hs i j hi hj hij'
    rw [List.getD_eq_getElem _ _ hi, List.getD_eq_getElem _ _ hj] at *
    rw [cmpOptStr_gt_iff_lt] at hgt ⊢
    exact cmpOptStr_lt_le_trans hgt (recLeB_iff.mp hpair)

theorem find_index_err {ps : PersistentProperties} {n : String} {p : Nat}
    (hs : List.Sorted (fun a b => recLeB a b = true) ps)
    (h : find_index ps n = .error p) :
    p ≤ ps.length ∧
    (∀ j, j < p → j < ps.length →
      cmpOptStr (ps.getD j default).name (some n) = .lt) ∧
    (∀ j, p ≤ j → j < ps.length →
      cmpOptStr (ps.getD j default).name (some n) = .gt) := by
  unfold find_index at h
  exact binarySearchGo_err
    (fun q : PersistentPropertyRecord => cmpOptStr q.name (some n)) ps
    (sorted_cmp_mono_lt hs n) (sorted_cmp_mono_gt hs n)
    ps.length 0 ps.length p (by omega) (by omega) (le_refl _)
    (fun j hj _ => absurd hj (Nat.not_lt_zero j))
    (fun j hj hjl => absurd (lt_of_lt_of_le hjl hj) (lt_irrefl _))
    h

theorem find_index_err_not_mem {ps : PersistentProperties} {n : String}
    {p : Nat} (hs : List.Sorted (fun a b => recLeB a b = true) ps)
    (h : find_index ps n = .error p) :
    ∀ q ∈ ps, q.name ≠ some n := by
  intro q hq he
  rcases List.mem_iff_getElem.mp hq with ⟨j, hj, hje⟩
  have hgd : (ps.getD j default).name = some n := by
    rw [List.getD_eq_getElem _ _ hj, hje, he]
  rcases Nat.lt_or_ge j p with hjp | hjp
  · have := (find_index_err hs h).2.1 j hjp hj
    rw [hgd, cmpOptStr_refl] at this
    cases this
  · have := (find_index_err hs h).2.2 j hjp hj
    rw [hgd, cmpOptStr_refl] at this
    cases this

/-!
Structure lemmas about the index mutations.
-/

theorem find_index_mem_ok {ps : PersistentProperties} {n : String}
    (hs : List.Sorted (fun a b => recLeB a b = true) ps)
    (hmem : ∃ q ∈ ps, q.name = some n) :
    ∃ idx, find_index ps n = .ok idx := by
  cases hres : find_index ps n with
  | ok idx => exact ⟨idx, rfl⟩
  | error p =>
    rcases hmem with ⟨q, hq, hqn⟩
    exact absurd hqn (find_index_err_not_mem hs hres q hq)

theorem sortedNames_names_inj {ps : PersistentProperties} (hs : SortedNames ps)
    {i j : Nat} (hi : i < ps.length) (hj : j < ps.length)
    (he : (ps.getD i default).name = (ps.getD j default).name) : i = j := by
  by_contra hne
  rcases Nat.lt_or_ge i j with hij | hij
  · have := List.pairwise_iff_getElem.mp hs i j hi hj hij
    rw [← List.getD_eq_getElem _ default hi, ← List.getD_eq_getElem _ default hj] at this
    rw [he, cmpOptStr_refl] at this
    cases this
  · have hij' : j < i := by omega
    have := List.pairwise_iff_getElem.mp hs j i hj hi hij'
    rw [← List.getD_eq_getElem _ default hj, ← List.getD_eq_getElem _ default hi] at this
    rw [he, cmpOptStr_refl] at this
    cases this

theorem length_setValueAt (ps : PersistentProperties) (idx : Nat) (v : String) :
    (setValueAt ps idx v).length = ps.length :=
  List.length_set ps idx _

theorem names_setValueAt (ps : PersistentProperties) {idx : Nat} (v : String)
    (hidx : idx < ps.length) :
    (setValueAt ps idx v).map (fun p => p.name) = ps.map (fun p => p.name) := by
  unfold setValueAt
  rw [List.map_set]
  apply List.ext_getElem
  · simp
  · intro k h₁ h₂
    rw [List.getElem_set]
    split
    · next he =>
      subst he
      rw [List.getElem_map, List.getD_eq_getElem _ default hidx]
    · rfl

theorem getD_setValueAt_same {ps : PersistentProperties} {idx : Nat}
    (v : String) (hidx : idx < ps.length) :
    (setValueAt ps idx v).getD idx default =
      { (ps.getD idx default) with value := some v } := by
  unfold setValueAt
  rw [List.getD_eq_getElem _ default (by rw [List.length_set]; exact hidx)]
  exact List.getElem_set_self _

theorem getD_setValueAt_other {ps : PersistentProperties} {idx j : Nat}
    (v : String) (hne : j ≠ idx) :
    (setValueAt ps idx v).getD j default = ps.getD j default := by
  unfold setValueAt
  rcases Nat.lt_or_ge j ps.length with hj | hj
  · rw [List.getD_eq_getElem _ default (by rw [List.length_set]; exact hj),
      List.getD_eq_getElem _ default hj, List.getElem_set, if_neg (fun he => hne he.symm)]
  · rw [List.getD_eq_default _ default (by rw [List.length_set]; omega),
      List.getD_eq_default _ default hj]

theorem sortedNames_iff_names {ps : PersistentProperties} :
    SortedNames ps ↔
      List.Pairwise (fun x y => cmpOptStr x y = Ordering.lt)
        (ps.map (fun p => p.name)) := by
  rw [List.pairwise_map]
  exact Iff.rfl

theorem pndistinct_iff_names {ps : PersistentProperties} :
    WFProps ps ↔
      List.Pairwise (fun x y => ∀ n : String, x = some n → y = some n → False)
        (ps.map (fun p => p.name)) := by
  rw [List.pairwise_map]
  exact Iff.rfl

theorem sortedNames_setValueAt {ps : PersistentProperties} {idx : Nat}
    (v : String) (hs : SortedNames ps) (hidx : idx < ps.length) :
    SortedNames (setValueAt ps idx v) := by
  rw [sortedNames_iff_names, names_setValueAt ps v hidx, ← sortedNames_iff_names]
  exact hs

theorem wfProps_setValueAt {ps : PersistentProperties} {idx : Nat}
    (v : String) (hw : WFProps ps) (hidx : idx < ps.length) :
    WFProps (setValueAt ps idx v) := by
  rw [pndistinct_iff_names, names_setValueAt ps v hidx, ← pndistinct_iff_names]
  exact hw

theorem sortedNames_eraseIdx {ps : PersistentProperties} {idx : Nat}
    (hs : SortedNames ps) : SortedNames (ps.eraseIdx idx) :=
  List.Pairwise.sublist (List.eraseIdx_sublist ps idx) hs

theorem wfProps_eraseIdx {ps : PersistentProperties} {idx : Nat}
    (hw : WFProps ps) : WFProps (ps.eraseIdx idx) :=
  List.Pairwise.sublist (List.eraseIdx_sublist ps idx) hw

theorem wfProps_of_perm {ps qs : PersistentProperties} (hp : ps.Perm qs)
    (hw : WFProps ps) : WFProps qs :=
  (List.Perm.pairwise_iff (fun hab n h₁ h₂ => hab n h₂ h₁) hp).mp hw

theorem wfProps_sortProps {ps : PersistentProperties} (hw : WFProps ps) :
    WFProps (sortProps ps) :=
  wfProps_of_perm (sortProps_perm ps).symm hw

theorem pairwise_insertIdx_of {α : Type} {R : α → α → Prop} {l : List α}
    {a : α} {p : Nat} (hp : p ≤ l.length) (hl : List.Pairwise R l)
    (hb : ∀ j (h : j < l.length), j < p → R l[j] a)
    (ha : ∀ j (h : j < l.length), p ≤ j → R a l[j]) :
    List.Pairwise R (l.insertIdx p a) := by
  rw [List.pairwise_iff_getElem]
  intro i j hi hj hij
  have hlen : (l.insertIdx p a).length = l.length + 1 :=
    List.length_insertIdx p l hp
  rw [hlen] at hi hj
  have hget : ∀ k (hk : k < (l.insertIdx p a).length),
      (k < p → ∃ hk' : k < l.length, (l.insertIdx p a)[k] = l[k]) ∧
      (k = p → (l.insertIdx p a)[k] = a) ∧
      (p < k → ∃ hk' : k - 1 < l.length, (l.insertIdx p a)[k] = l[k - 1]) := by
    intro k hk
    rw [hlen] at hk
    refine ⟨?_, ?_, ?_⟩
    · intro hkp
      have hk' : k < l.length := by omega
      exact ⟨hk', List.getElem_insertIdx_of_lt l a p k hkp hk' _⟩
    · intro he
      subst he
      exact List.getElem_insertIdx_self l a k hp
    · intro hkp
      have hk' : k - 1 < l.length := by omega
      refine ⟨hk', ?_⟩
      have hke : k = p + (k - p - 1) + 1 := by omega
      have hlt : p + (k - p - 1) < l.length := by omega
      have hb1 : p + (k - p - 1) + 1 < (l.insertIdx p a).length := by omega
      calc (l.insertIdx p a)[k]
          = (l.insertIdx p a)[p + (k - p - 1) + 1] := by
            congr 1 <;> omega
        _ = l[p + (k - p - 1)] := List.getElem_insertIdx_add_succ l a p _ hlt _
        _ = l[k - 1] := by
            congr 1 <;> omega
  rcases Nat.lt_trichotomy i p with hip | hip | hip
  · rcases Nat.lt_trichotomy j p with hjp | hjp | hjp
    · rcases ((hget i (by omega)).1 hip) with ⟨hi', hie⟩
      rcases ((hget j (by omega)).1 hjp) with ⟨hj', hje⟩
      rw [hie, hje]
      exact List.pairwise_iff_getElem.mp hl i j hi' hj' hij
    · rcases ((hget i (by omega)).1 hip) with ⟨hi', hie⟩
      rw [hie, (hget j (by omega)).2.1 hjp]
      exact hb i hi' hip
    · rcases ((hget i (by omega)).1 hip) with ⟨hi', hie⟩
      rcases ((hget j (by omega)).2.2 hjp) with ⟨hj', hje⟩
      rw [hie, hje]
      exact List.pairwise_iff_getElem.mp hl i (j - 1) hi' hj' (by omega)
  · subst hip
    have hjp : i < j := hij
    rcases ((hget j (by omega)).2.2 (by omega)) with ⟨hj', hje⟩
    rw [(hget i (by omega)).2.1 rfl, hje]
    exact ha (j - 1) hj' (by omega)
  · rcases ((hget i (by omega)).2.2 hip) with ⟨hi', hie⟩
    rcases ((hget j (by omega)).2.2 (by omega)) with ⟨hj', hje⟩
    rw [hie, hje]
    exact List.pairwise_iff_getElem.mp hl (i - 1) (j - 1) hi' hj' (by omega)

theorem sortedNames_insertIdx {ps : PersistentProperties} {n : String}
    (v : String) {p : Nat} (hs : SortedNames ps)
    (herr : find_index ps n = .error p) :
    SortedNames (ps.insertIdx p ⟨some n, some v⟩) := by
  have hfe := find_index_err (sortedNames_le hs) herr
  refine pairwise_insertIdx_of hfe.1 hs ?_ ?_
  · intro j hj hjp
    have h := hfe.2.1 j hjp hj
    rw [List.getD_eq_getElem _ default hj] at h
    exact h
  · intro j hj hjp
    have h := hfe.2.2 j hjp hj
    rw [List.getD_eq_getElem _ default hj] at h
    rw [cmpOptStr_gt_iff_lt] at h
    exact h

theorem wfProps_insertIdx {ps : PersistentProperties} {n : String}
    (v : String) {p : Nat} (hw : WFProps ps)
    (hsle : List.Sorted (fun a b => recLeB a b = true) ps)
    (herr : find_index ps n = .error p) :
    WFProps (ps.insertIdx p ⟨some n, some v⟩) := by
  have hfe := find_index_err hsle herr
  have hnm : ∀ j (hj : j < ps.length), ps[j].name ≠ some n := by
    intro j hj
    exact find_index_err_not_mem hsle herr ps[j] (List.getElem_mem hj)
  refine pairwise_insertIdx_of hfe.1 hw ?_ ?_
  · intro j hj hjp m h₁ h₂
    have h₂' : some n = some m := h₂
    injection h₂' with h₂'
    subst h₂'
    exact hnm j hj h₁
  · intro j hj hjp m h₁ h₂
    have h₁' : some n = some m := h₁
    injection h₁' with h₁'
    subst h₁'
    exact hnm j hj h₂

theorem find_index_ok_iff {ps : PersistentProperties} {n : String} {idx : Nat}
    (hs : SortedNames ps) :
    find_index ps n = .ok idx ↔
      idx < ps.length ∧ (ps.getD idx default).name = some n := by
  constructor
  · exact find_index_ok
  · rintro ⟨hidx, hname⟩
    have hmem : ∃ q ∈ ps, q.name = some n := by
      refine ⟨ps[idx], List.getElem_mem hidx, ?_⟩
      rw [← List.getD_eq_getElem _ default hidx]
      exact hname
    rcases find_index_mem_ok (sortedNames_le hs) hmem with ⟨j, hj⟩
    have hok := find_index_ok hj
    have hje : j = idx :=
      sortedNames_names_inj hs hok.1 hidx (hok.2.trans hname.symm)
    rw [← hje]
    exact hj

theorem insert_point_unique {ps : PersistentProperties} {n v : String}
    {p q : Nat} (hs : SortedNames ps) (herr : find_index ps n = .error p)
    (hq : q ≤ ps.length)
    (hqs : SortedNames (ps.insertIdx q ⟨some n, some v⟩)) : q = p := by
  have hfe := find_index_err (sortedNames_le hs) herr
  have hlen : (ps.insertIdx q (⟨some n, some v⟩ : PersistentPropertyRecord)).length
      = ps.length + 1 := List.length_insertIdx q ps hq
  by_contra hne
  rcases Nat.lt_or_ge q p with hqp | hqp
  · have hq1 : q < ps.length := by omega
    have hbq : q < (ps.insertIdx q
        (⟨some n, some v⟩ : PersistentPropertyRecord)).length := by omega
    have hbq1 : q + 1 < (ps.insertIdx q
        (⟨some n, some v⟩ : PersistentPropertyRecord)).length := by omega
    have hgq : (ps.insertIdx q (⟨some n, some v⟩ : PersistentPropertyRecord))[q]
        = ⟨some n, some v⟩ := List.getElem_insertIdx_self ps _ q hq
    have hgq1 : (ps.insertIdx q (⟨some n, some v⟩ : PersistentPropertyRecord))[q + 1]
        = ps[q] := by
      have h := List.getElem_insertIdx_add_succ ps (⟨some n, some v⟩ : PersistentPropertyRecord)
        q 0 (by omega) (by omega)
      simpa using h
    have hpair := List.pairwise_iff_getElem.mp hqs q (q + 1) (by omega) (by omega)
      (by omega)
    rw [hgq, hgq1] at hpair
    have hlt := hfe.2.1 q hqp hq1
    rw [List.getD_eq_getElem _ default hq1] at hlt
    rw [cmpOptStr_gt_iff_lt.symm] at hpair
    have : Ordering.lt = Ordering.gt := hlt.symm.trans hpair
    cases this
  · have hplen : p ≤ ps.length := hfe.1
    have hq1 : q - 1 < ps.length := by omega
    have hbq : q < (ps.insertIdx q
        (⟨some n, some v⟩ : PersistentPropertyRecord)).length := by omega
    have hbq1 : q - 1 < (ps.insertIdx q
        (⟨some n, some v⟩ : PersistentPropertyRecord)).length := by omega
    have hgq : (ps.insertIdx q (⟨some n, some v⟩ : PersistentPropertyRecord))[q]
        = ⟨some n, some v⟩ := List.getElem_insertIdx_self ps _ q hq
    have hgq1 : (ps.insertIdx q (⟨some n, some v⟩ : PersistentPropertyRecord))[q - 1]
        = ps[q - 1] :=
      List.getElem_insertIdx_of_lt ps _ q (q - 1) (by omega) hq1 (by omega)
    have hpair := List.pairwise_iff_getElem.mp hqs (q - 1) q (by omega) (by omega)
      (by omega)
    rw [hgq, hgq1] at hpair
    have hgt := hfe.2.2 (q - 1) (by omega) hq1
    rw [List.getD_eq_getElem _ default hq1] at hgt
    rw [cmpOptStr_gt_iff_lt] at hgt
    have : Ordering.lt = Ordering.gt := hpair.symm.trans (cmpOptStr_gt_iff_lt.mpr hgt)
    cases this

/-!
Unfolding helpers for the operations.
-/

theorem check_proto_some {s : SysState} {x : ContainerData}
    (hc : s.container = some x) : check_proto s = true := by
  unfold check_proto
  rw [hc]
  rfl

theorem check_proto_none {s : SysState} (hc : s.container = none) :
    check_proto s = false := by
  unfold check_proto
  rw [hc]
  rfl

theorem proto_read_props_good {s : SysState} {ps : PersistentProperties}
    (hc : s.container = some (.good ps)) :
    proto_read_props s = .ok (sortProps ps) := by
  unfold proto_read_props
  rw [hc]

theorem proto_read_props_corrupt {s : SysState}
    (hc : s.container = some .corrupt) : proto_read_props s = .error () := by
  unfold proto_read_props
  rw [hc]

theorem proto_write_props_ok (props : PersistentProperties) (s : SysState) :
    proto_write_props props noFail s =
      (.ok (), { s with container := some (.good props) },
        [.createTmpContainer, .encodeTmp, .cloneAttr, .renameContainer]) :=
  rfl

theorem proto_write_props_fail (props : PersistentProperties) {f : FailSpec}
    (s : SysState) (h1 : f.mkstempFail = false)
    (h2 : f.writeFail = true ∨ f.crashBeforeRename = true) :
    (proto_write_props props f s).1 = .error () ∧
    (proto_write_props props f s).2.1 = { s with tmps := s.tmps + 1 } := by
  unfold proto_write_props
  rw [h1]
  rcases h2 with h2 | h2
  · rw [h2]
    simp
  · rw [h2]
    by_cases hw : f.writeFail = true
    · rw [hw]
      simp
    · rw [Bool.not_eq_true] at hw
      rw [hw]
      simp

theorem persist_set_prop_proto_hit {s : SysState} {ps : PersistentProperties}
    {n : String} (v : String) (f : FailSpec) {idx : Nat}
    (hc : s.container = some (.good ps))
    (hf : find_index (sortProps ps) n = .ok idx) :
    persist_set_prop n v f s =
      match proto_write_props (setValueAt (sortProps ps) idx v) f s with
      | (r, s', ev) => (exOk r, s', .checkProto :: .readContainer :: ev) := by
  unfold persist_set_prop
  rw [check_proto_some hc, proto_read_props_good hc]
  simp only [if_true]
  rw [hf]

theorem persist_set_prop_proto_miss {s : SysState} {ps : PersistentProperties}
    {n : String} (v : String) (f : FailSpec) {p : Nat}
    (hc : s.container = some (.good ps))
    (hf : find_index (sortProps ps) n = .error p) :
    persist_set_prop n v f s =
      match proto_write_props ((sortProps ps).insertIdx p ⟨some n, some v⟩) f s with
      | (r, s', ev) => (exOk r, s', .checkProto :: .readContainer :: ev) := by
  unfold persist_set_prop
  rw [check_proto_some hc, proto_read_props_good hc]
  simp only [if_true]
  rw [hf]

theorem persist_set_prop_corrupt {s : SysState} (n v : String) (f : FailSpec)
    (hc : s.container = some .corrupt) :
    persist_set_prop n v f s = (false, s, [.checkProto, .readContainer]) := by
  unfold persist_set_prop
  rw [check_proto_some hc, proto_read_props_corrupt hc]
  simp only [if_true]

theorem persist_set_prop_flat {s : SysState} (n v : String) (f : FailSpec)
    (hc : s.container = none) :
    persist_set_prop n v f s =
      match file_set_prop n (some v) f s with
      | (r, s', ev) => (exOk r, s', .checkProto :: ev) := by
  unfold persist_set_prop
  rw [check_proto_none hc]
  simp only [if_false, Bool.false_eq_true]

theorem persist_delete_prop_proto_hit {s : SysState}
    {ps : PersistentProperties} {n : String} (f : FailSpec) {idx : Nat}
    (hc : s.container = some (.good ps))
    (hf : find_index (sortProps ps) n = .ok idx) :
    persist_delete_prop n f s =
      match proto_write_props ((sortProps ps).eraseIdx idx) f s with
      | (r, s', ev) => (exOk r, s', .checkProto :: .readContainer :: ev) := by
  unfold persist_delete_prop
  rw [check_proto_some hc, proto_read_props_good hc]
  simp only [if_true]
  rw [hf]

theorem persist_delete_prop_proto_miss {s : SysState}
    {ps : PersistentProperties} {n : String} (f : FailSpec) {p : Nat}
    (hc : s.container = some (.good ps))
    (hf : find_index (sortProps ps) n = .error p) :
    persist_delete_prop n f s = (false, s, [.checkProto, .readContainer]) := by
  unfold persist_delete_prop
  rw [check_proto_some hc, proto_read_props_good hc]
  simp only [if_true]
  rw [hf]

theorem persist_delete_prop_corrupt {s : SysState} (n : String) (f : FailSpec)
    (hc : s.container = some .corrupt) :
    persist_delete_prop n f s = (false, s, [.checkProto, .readContainer]) := by
  unfold persist_delete_prop
  rw [check_proto_some hc, proto_read_props_corrupt hc]
  simp only [if_true]

theorem persist_delete_prop_flat {s : SysState} (n : String) (f : FailSpec)
    (hc : s.container = none) :
    persist_delete_prop n f s =
      match file_set_prop n none f s with
      | (r, s', ev) => (exOk r, s', .checkProto :: ev) := by
  unfold persist_delete_prop
  rw [check_proto_none hc]
  simp only [if_false, Bool.false_eq_true]

theorem persist_get_prop_proto {s : SysState} {ps : PersistentProperties}
    (n : String) (hc : s.container = some (.good ps)) :
    persist_get_prop n s =
      match find_index (sortProps ps) n with
      | .ok idx =>
        match ((sortProps ps).getD idx default).name,
            ((sortProps ps).getD idx default).value with
        | some n', some v => ([(n', v)], [.checkProto, .readContainer])
        | _, _ => ([], [.checkProto, .readContainer])
      | .error _ => ([], [.checkProto, .readContainer]) := by
  unfold persist_get_prop
  rw [check_proto_some hc, proto_read_props_good hc]
  simp only [if_true]

theorem persist_get_prop_corrupt {s : SysState} (n : String)
    (hc : s.container = some .corrupt) :
    persist_get_prop n s = ([], [.checkProto, .readContainer]) := by
  unfold persist_get_prop
  rw [check_proto_some hc, proto_read_props_corrupt hc]
  simp only [if_true]

theorem persist_get_prop_flat {s : SysState} (n : String)
    (hc : s.container = none) :
    persist_get_prop n s =
      match lookupFlat s.flat n with
      | some v => ([(n, v)], [.checkProto, .readFlat n])
      | none => ([], [.checkProto, .readFlat n]) := by
  unfold persist_get_prop
  rw [check_proto_none hc]
  simp only [if_false, Bool.false_eq_true]
  unfold file_get_prop
  cases lookupFlat s.flat n <;> rfl

theorem persist_get_props_proto {s : SysState} {ps : PersistentProperties}
    (hc : s.container = some (.good ps)) :
    persist_get_props s =
      (liveCalls (sortProps ps), [.checkProto, .readContainer]) := by
  unfold persist_get_props
  rw [check_proto_some hc, proto_read_props_good hc]
  simp only [if_true]

theorem persist_get_props_corrupt {s : SysState}
    (hc : s.container = some .corrupt) :
    persist_get_props s = ([], [.checkProto, .readContainer]) := by
  unfold persist_get_props
  rw [check_proto_some hc, proto_read_props_corrupt hc]
  simp only [if_true]

theorem persist_get_props_flat {s : SysState} (hc : s.container = none) :
    persist_get_props s =
      (s.flat.filterMap (fun e => (lookupFlat s.flat e.1).map (fun v => (e.1, v))),
        .checkProto :: .listFlatDir :: s.flat.map (fun e => .readFlat e.1)) := by
  unfold persist_get_props
  rw [check_proto_none hc]
  simp only [if_false, Bool.false_eq_true]

theorem persist_get_props_wrap {s : SysState} :
    (persist_get_props s).2 ≠ [] := by
  unfold persist_get_props
  by_cases h : check_proto s = true
  · rw [h]
    simp only [if_true]
    cases proto_read_props s <;> simp
  · rw [Bool.not_eq_true] at h
    rw [h]
    simp

/-!
Flat-file backend lemmas.
-/

theorem lookupFlat_nil (m : String) : lookupFlat [] m = none := rfl

theorem lookupFlat_cons (e : String × String) (t : List (String × String))
    (m : String) :
    lookupFlat (e :: t) m = if e.1 = m then some e.2 else lookupFlat t m := by
  unfold lookupFlat
  rw [List.find?_cons]
  by_cases h : e.1 = m
  · rw [if_pos h]
    have hb : (e.1 == m) = true := beq_iff_eq.mpr h
    rw [hb]
    rfl
  · rw [if_neg h]
    have hb : (e.1 == m) = false := beq_eq_false_iff_ne.mpr h
    rw [hb]

theorem lookupFlat_setFlat (fl : List (String × String)) (n v m : String) :
    lookupFlat (setFlat fl n v) m =
      if m = n then some v else lookupFlat fl m := by
  induction fl with
  | nil =>
    rw [setFlat, lookupFlat_cons, lookupFlat_nil]
    by_cases h : m = n
    · rw [if_pos h, if_pos h.symm]
    · rw [if_neg h, if_neg (fun he => h he.symm)]
  | cons e t ih =>
    rw [setFlat]
    by_cases he : e.1 = n
    · rw [if_pos he, lookupFlat_cons, lookupFlat_cons]
      by_cases h : m = n
      · rw [if_pos h, if_pos h.symm]
      · rw [if_neg h, if_neg (fun hc => h hc.symm), if_neg (fun hc => h (he ▸ hc).symm)]
    · rw [if_neg he, lookupFlat_cons, lookupFlat_cons, ih]
      by_cases h : e.1 = m
      · rw [if_pos h, if_pos h, if_neg (fun hc => he (h.trans hc))]
      · rw [if_neg h, if_neg h]

theorem keys_setFlat (fl : List (String × String)) (n v m : String) :
    m ∈ (setFlat fl n v).map Prod.fst ↔ m = n ∨ m ∈ fl.map Prod.fst := by
  induction fl with
  | nil =>
    rw [setFlat]
    simp
  | cons e t ih =>
    rw [setFlat]
    by_cases he : e.1 = n
    · rw [if_pos he]
      simp only [List.map_cons, List.mem_cons, he]
      constructor
      · rintro (h | h)
        · exact Or.inl h
        · exact Or.inr (Or.inr h)
      · rintro (h | h | h)
        · exact Or.inl h
        · exact Or.inl (he ▸ h)
        · exact Or.inr h
    · rw [if_neg he]
      simp only [List.map_cons, List.mem_cons, ih]
      constructor
      · rintro (h | h | h)
        · exact Or.inr (Or.inl h)
        · exact Or.inl h
        · exact Or.inr (Or.inr h)
      · rintro (h | h | h)
        · exact Or.inr (Or.inl h)
        · exact Or.inl h
        · exact Or.inr (Or.inr h)

theorem nodupKeys_setFlat {fl : List (String × String)} (n v : String)
    (h : (fl.map Prod.fst).Nodup) : ((setFlat fl n v).map Prod.fst).Nodup := by
  induction fl with
  | nil =>
    rw [setFlat]
    simp
  | cons e t ih =>
    rw [List.map_cons, List.nodup_cons] at h
    rw [setFlat]
    by_cases he : e.1 = n
    · rw [if_pos he]
      rw [List.map_cons, List.nodup_cons]
      exact ⟨he ▸ h.1, h.2⟩
    · rw [if_neg he]
      rw [List.map_cons, List.nodup_cons]
      refine ⟨?_, ih h.2⟩
      intro hc
      rcases (keys_setFlat t n v e.1).mp hc with hc | hc
      · exact he hc
      · exact h.1 hc

theorem lookupFlat_removeFlat (fl : List (String × String)) (n m : String) :
    lookupFlat (removeFlat fl n) m =
      if m = n then none else lookupFlat fl m := by
  induction fl with
  | nil =>
    unfold removeFlat
    rw [List.filter_nil, lookupFlat_nil]
    by_cases h : m = n
    · rw [if_pos h]
    · rw [if_neg h]
  | cons e t ih =>
    unfold removeFlat at *
    rw [List.filter_cons]
    by_cases he : e.1 = n
    · have hb : (e.1 != n) = false := by
        rw [bne_eq_false_iff_eq]
        exact he
      rw [hb]
      simp only [Bool.false_eq_true, if_false]
      rw [ih, lookupFlat_cons]
      by_cases h : m = n
      · rw [if_pos h, if_pos h]
      · rw [if_neg h, if_neg h, if_neg (fun hc => h (hc.symm.trans he))]
    · have hb : (e.1 != n) = true := bne_iff_ne.mpr he
      rw [hb]
      simp only [if_true]
      rw [lookupFlat_cons, lookupFlat_cons, ih]
      by_cases h : e.1 = m
      · rw [if_pos h, if_pos h, if_neg (fun hc : m = n => he (h.trans hc))]
      · rw [if_neg h, if_neg h]

theorem lookupFlat_eq_some_of_mem {fl : List (String × String)}
    (h : (fl.map Prod.fst).Nodup) {e : String × String} (he : e ∈ fl) :
    lookupFlat fl e.1 = some e.2 := by
  induction fl with
  | nil => cases he
  | cons a t ih =>
    rw [List.map_cons, List.nodup_cons] at h
    rw [lookupFlat_cons]
    rcases List.mem_cons.mp he with he' | he'
    · subst he'
      rw [if_pos rfl]
    · have hne : a.1 ≠ e.1 := by
        intro hc
        exact h.1 (hc ▸ List.mem_map_of_mem Prod.fst he')
      rw [if_neg hne]
      exact ih h.2 he'

theorem mem_iff_lookupFlat {fl : List (String × String)}
    (h : (fl.map Prod.fst).Nodup) (n v : String) :
    (n, v) ∈ fl ↔ lookupFlat fl n = some v := by
  constructor
  · intro hm
    exact lookupFlat_eq_some_of_mem h hm
  · intro hl
    induction fl with
    | nil => cases hl
    | cons a t ih =>
      rw [lookupFlat_cons] at hl
      rw [List.map_cons, List.nodup_cons] at h
      by_cases ha : a.1 = n
      · rw [if_pos ha] at hl
        injection hl with hl
        exact List.mem_cons.mpr (Or.inl (Prod.ext ha hl).symm)
      · rw [if_neg ha] at hl
        exact List.mem_cons.mpr (Or.inr (ih h.2 hl))

theorem flatAll_eq {fl : List (String × String)}
    (h : (fl.map Prod.fst).Nodup) :
    fl.filterMap (fun e => (lookupFlat fl e.1).map (fun v => (e.1, v))) = fl := by
  have haux : ∀ l : List (String × String),
      (∀ e ∈ l, lookupFlat fl e.1 = some e.2) →
      l.filterMap (fun e => (lookupFlat fl e.1).map (fun v => (e.1, v))) = l := by
    intro l
    induction l with
    | nil => intro _; rfl
    | cons a t ih =>
      intro hall
      rw [List.filterMap_cons, hall a (List.mem_cons_self a t)]
      show (a.1, a.2) ::
          t.filterMap (fun e => (lookupFlat fl e.1).map (fun v => (e.1, v)))
          = a :: t
      rw [ih (fun e he => hall e (List.mem_cons_of_mem a he))]
  exact haux fl (fun e he => lookupFlat_eq_some_of_mem h he)

/-!
Write-sequence folding lemmas.
-/

theorem lastVal_nil (m : String) : lastVal [] m = none := rfl

theorem lastVal_append (ws : List (String × String)) (n v m : String) :
    lastVal (ws ++ [(n, v)]) m = if n = m then some v else lastVal ws m := by
  unfold lastVal
  rw [List.foldl_append]
  rfl

theorem runSetsOk_append (ws : List (String × String)) (w : String × String)
    (s : SysState) :
    runSetsOk (ws ++ [w]) s =
      ((runSetsOk ws s).1 && (persist_set_prop w.1 w.2 noFail (runSets ws s)).1,
        (persist_set_prop w.1 w.2 noFail (runSets ws s)).2.1) := by
  unfold runSets runSetsOk
  rw [List.foldl_append]
  rfl

theorem runSets_append (ws : List (String × String)) (w : String × String)
    (s : SysState) :
    runSets (ws ++ [w]) s =
      (persist_set_prop w.1 w.2 noFail (runSets ws s)).2.1 := by
  show (runSetsOk (ws ++ [w]) s).2 = _
  rw [runSetsOk_append]

theorem runMuts_append (ops : List (MutOp × FailSpec)) (m : MutOp × FailSpec)
    (s : SysState) :
    runMuts (ops ++ [m]) s = runMut m (runMuts ops s) := by
  unfold runMuts
  rw [List.foldl_append]
  rfl

/-!
Membership lemmas for the in-memory index updates.
-/

theorem mem_liveCalls_iff {ps : PersistentProperties} {m w : String} :
    (m, w) ∈ liveCalls ps ↔
      (⟨some m, some w⟩ : PersistentPropertyRecord) ∈ ps := by
  unfold liveCalls
  rw [List.mem_filterMap]
  constructor
  · rintro ⟨q, hq, hf⟩
    rcases q with ⟨qn, qv⟩
    cases qn with
    | none => cases hf
    | some a =>
      cases qv with
      | none => cases hf
      | some b =>
        injection hf with hf
        injection hf with h1 h2
        subst h1
        subst h2
        exact hq
  · intro hm
    exact ⟨⟨some m, some w⟩, hm, rfl⟩

theorem mem_setValueAt_iff {ps : PersistentProperties} {n : String}
    (v : String) {idx : Nat} (hs : SortedNames ps)
    (hf : find_index ps n = .ok idx) (m w : String) :
    ((⟨some m, some w⟩ : PersistentPropertyRecord) ∈ setValueAt ps idx v) ↔
      (if m = n then w = v
        else (⟨some m, some w⟩ : PersistentPropertyRecord) ∈ ps) := by
  have hok := find_index_ok hf
  have hlen : (setValueAt ps idx v).length = ps.length :=
    length_setValueAt ps idx v
  constructor
  · intro hm
    rcases List.mem_iff_getElem.mp hm with ⟨j, hj, hje⟩
    have hj' : j < ps.length := by omega
    by_cases hji : j = idx
    · subst hji
      have hsv := getD_setValueAt_same v hok.1
      rw [List.getD_eq_getElem _ default (by omega), hje] at hsv
      have hsv' : (⟨some m, some w⟩ : PersistentPropertyRecord) =
          (⟨(ps.getD j default).name, some v⟩ : PersistentPropertyRecord) := hsv
      injection hsv' with h1 h2
      have hmn : m = n := by
        have h3 := h1.trans hok.2
        injection h3
      have hwv : w = v := by injection h2
      rw [if_pos hmn]
      exact hwv
    · have hje' : ps[j] = (⟨some m, some w⟩ : PersistentPropertyRecord) := by
        have := @getD_setValueAt_other ps idx j v hji
        rw [List.getD_eq_getElem _ default (by omega),
          List.getD_eq_getElem _ default hj'] at this
        rw [← this, hje]
      have hmn : ¬m = n := by
        intro hc
        subst hc
        apply hji
        apply sortedNames_names_inj hs hj' hok.1
        rw [List.getD_eq_getElem _ default hj', hje', hok.2]
      rw [if_neg hmn]
      rw [← hje']
      exact List.getElem_mem hj'
  · intro hm
    by_cases hmn : m = n
    · subst hmn
      rw [if_pos rfl] at hm
      rw [hm]
      have hrec : (setValueAt ps idx v).getD idx default =
          (⟨some m, some v⟩ : PersistentPropertyRecord) := by
        rw [getD_setValueAt_same v hok.1]
        show (⟨(ps.getD idx default).name, some v⟩ : PersistentPropertyRecord)
            = ⟨some m, some v⟩
        rw [hok.2]
      rw [← hrec, List.getD_eq_getElem _ default (by omega)]
      exact List.getElem_mem (by omega)
    · rw [if_neg hmn] at hm
      rcases List.mem_iff_getElem.mp hm with ⟨j, hj, hje⟩
      have hji : j ≠ idx := by
        intro hc
        subst hc
        apply hmn
        have : (ps[j]).name = some n := by
          rw [← List.getD_eq_getElem _ default hj]
          exact hok.2
        rw [hje] at this
        injection this
      have : (setValueAt ps idx v).getD j default =
          (⟨some m, some w⟩ : PersistentPropertyRecord) := by
        rw [@getD_setValueAt_other ps idx j v hji,
          List.getD_eq_getElem _ default hj, hje]
      rw [← this, List.getD_eq_getElem _ default (by omega)]
      exact List.getElem_mem (by omega)

theorem mem_insertIdx_rec_iff {ps : PersistentProperties} {n : String}
    (v : String) {p : Nat}
    (hsle : List.Sorted (fun a b => recLeB a b = true) ps)
    (hf : find_index ps n = .error p) (m w : String) :
    ((⟨some m, some w⟩ : PersistentPropertyRecord)
        ∈ ps.insertIdx p ⟨some n, some v⟩) ↔
      (if m = n then w = v
        else (⟨some m, some w⟩ : PersistentPropertyRecord) ∈ ps) := by
  have hp : p ≤ ps.length := (find_index_err hsle hf).1
  rw [List.mem_insertIdx hp]
  by_cases hmn : m = n
  · subst hmn
    rw [if_pos rfl]
    constructor
    · rintro (h | h)
      · injection h with h1 h2
        injection h2
      · exact absurd rfl (find_index_err_not_mem hsle hf _ h)
    · intro h
      subst h
      exact Or.inl rfl
  · rw [if_neg hmn]
    constructor
    · rintro (h | h)
      · injection h with h1 h2
        injection h1 with h1
        exact absurd h1 hmn
      · exact h
    · exact Or.inr

theorem live_setValueAt {ps : PersistentProperties} {idx : Nat} (v : String)
    (hidx : idx < ps.length)
    (hlive : ∀ q ∈ ps, ∃ m w, q = (⟨some m, some w⟩ : PersistentPropertyRecord)) :
    ∀ q ∈ setValueAt ps idx v,
      ∃ m w, q = (⟨some m, some w⟩ : PersistentPropertyRecord) := by
  intro q hq
  rcases List.mem_iff_getElem.mp hq with ⟨j, hj, hje⟩
  have hj' : j < ps.length := by
    rw [length_setValueAt] at hj
    exact hj
  by_cases hji : j = idx
  · subst hji
    have hsame := getD_setValueAt_same v hidx
    rw [List.getD_eq_getElem _ default (by rw [length_setValueAt]; exact hj'),
      hje] at hsame
    rcases hlive (ps.getD j default)
        (by rw [List.getD_eq_getElem _ default hj']; exact List.getElem_mem hj')
      with ⟨m, w, hm⟩
    refine ⟨m, v, ?_⟩
    rw [hsame]
    show (⟨(ps.getD j default).name, some v⟩ : PersistentPropertyRecord) = _
    rw [hm]
  · have := @getD_setValueAt_other ps idx j v hji
    rw [List.getD_eq_getElem _ default (by rw [length_setValueAt]; exact hj'),
      List.getD_eq_getElem _ default hj', hje] at this
    rw [this]
    exact hlive ps[j] (List.getElem_mem hj')

theorem live_insertIdx {ps : PersistentProperties} {p : Nat} (n v : String)
    (hp : p ≤ ps.length)
    (hlive : ∀ q ∈ ps, ∃ m w, q = (⟨some m, some w⟩ : PersistentPropertyRecord)) :
    ∀ q ∈ ps.insertIdx p ⟨some n, some v⟩,
      ∃ m w, q = (⟨some m, some w⟩ : PersistentPropertyRecord) := by
  intro q hq
  rcases (List.mem_insertIdx hp).mp hq with hq' | hq'
  · exact ⟨n, v, hq'⟩
  · exact hlive q hq'

theorem runSets_proto_inv (ws : List (String × String)) :
    (runSetsOk ws protoEmptyState).1 = true ∧
    ∃ ps, (runSets ws protoEmptyState).container = some (.good ps) ∧
      SortedNames ps ∧
      (∀ q ∈ ps, ∃ m w, q = (⟨some m, some w⟩ : PersistentPropertyRecord)) ∧
      (∀ m w, ((⟨some m, some w⟩ : PersistentPropertyRecord) ∈ ps ↔
        lastVal ws m = some w)) := by
  induction ws using List.reverseRecOn with
  | nil =>
    refine ⟨rfl, [], rfl, List.Pairwise.nil, ?_, ?_⟩
    · intro q hq
      cases hq
    · intro m w
      constructor
      · intro h
        cases h
      · intro h
        cases h
  | append_singleton ws w ih =>
    rcases ih with ⟨hok, ps, hc, hs, hlive, hmem⟩
    have hsp : sortProps ps = ps := sortProps_eq_of_sortedNames hs
    rw [runSetsOk_append, runSets_append, hok]
    have hwp : w = (w.1, w.2) := rfl
    have hlast : ∀ m u, lastVal (ws ++ [w]) m = some u ↔
        (if m = w.1 then u = w.2 else lastVal ws m = some u) := by
      intro m u
      rw [hwp, lastVal_append]
      by_cases hmn : m = w.1
      · rw [if_pos hmn, if_pos hmn.symm]
        constructor
        · intro h
          injection h with h
          exact h.symm
        · intro h
          rw [h]
      · rw [if_neg hmn, if_neg (fun hc => hmn hc.symm)]
    cases hfi : find_index ps w.1 with
    | ok idx =>
      have hfi' : find_index (sortProps ps) w.1 = .ok idx := by rw [hsp]; exact hfi
      have hstep := persist_set_prop_proto_hit w.2 noFail hc hfi'
      rw [proto_write_props_ok, hsp] at hstep
      rw [hstep]
      have hidx := (find_index_ok hfi).1
      refine ⟨rfl, setValueAt ps idx w.2, rfl, sortedNames_setValueAt w.2 hs hidx,
        live_setValueAt w.2 hidx hlive, ?_⟩
      intro m u
      rw [mem_setValueAt_iff w.2 hs hfi m u, hlast m u]
      by_cases hmn : m = w.1
      · rw [if_pos hmn, if_pos hmn]
      · rw [if_neg hmn, if_neg hmn]
        exact hmem m u
    | error p =>
      have hfi' : find_index (sortProps ps) w.1 = .error p := by rw [hsp]; exact hfi
      have hstep := persist_set_prop_proto_miss w.2 noFail hc hfi'
      rw [proto_write_props_ok, hsp] at hstep
      rw [hstep]
      have hp : p ≤ ps.length := (find_index_err (sortedNames_le hs) hfi).1
      refine ⟨rfl, ps.insertIdx p ⟨some w.1, some w.2⟩, rfl,
        sortedNames_insertIdx w.2 hs hfi, live_insertIdx w.1 w.2 hp hlive, ?_⟩
      intro m u
      rw [mem_insertIdx_rec_iff w.2 (sortedNames_le hs) hfi m u, hlast m u]
      by_cases hmn : m = w.1
      · rw [if_pos hmn, if_pos hmn]
      · rw [if_neg hmn, if_neg hmn]
        exact hmem m u

theorem file_set_prop_some_noFail (n v : String) (s : SysState) :
    file_set_prop n (some v) noFail s =
      (.ok (), { s with flat := setFlat s.flat n v },
        [.createTmpFlat, .writeTmpFlat, .renameFlat n]) :=
  rfl

theorem runSets_flat_inv (ws : List (String × String)) :
    (runSetsOk ws flatEmptyState).1 = true ∧
    (runSets ws flatEmptyState).container = none ∧
    ((runSets ws flatEmptyState).flat.map Prod.fst).Nodup ∧
    ∀ m, lookupFlat (runSets ws flatEmptyState).flat m = lastVal ws m := by
  induction ws using List.reverseRecOn with
  | nil =>
    exact ⟨rfl, rfl, List.Pairwise.nil, fun m => rfl⟩
  | append_singleton ws w ih =>
    rcases ih with ⟨hok, hc, hnd, hlk⟩
    rw [runSetsOk_append, runSets_append, hok]
    have hstep := persist_set_prop_flat w.1 w.2 noFail hc
    rw [file_set_prop_some_noFail] at hstep
    rw [hstep]
    refine ⟨rfl, hc, nodupKeys_setFlat w.1 w.2 hnd, ?_⟩
    intro m
    rw [lookupFlat_setFlat]
    have hwp : w = (w.1, w.2) := rfl
    rw [hwp, lastVal_append]
    by_cases hmn : m = w.1
    · rw [if_pos hmn, if_pos hmn.symm]
    · rw [if_neg hmn, if_neg (fun hcc => hmn hcc.symm)]
      exact hlk m

theorem sortedNames_wfProps {ps : PersistentProperties} (hs : SortedNames ps) :
    WFProps ps := by
  refine hs.imp ?_
  intro a b hab m h1 h2
  rw [h1, h2, cmpOptStr_refl] at hab
  cases hab

theorem nodup_of_pairwise_strLt {l : List String}
    (h : l.Pairwise (fun a b => strCmp a b = .lt)) : l.Nodup := by
  refine h.imp ?_
  intro a b hab he
  rw [he, strCmp_eq_iff.mpr rfl] at hab
  cases hab

theorem liveCalls_pairwise {ps : PersistentProperties}
    (hsle : List.Sorted (fun a b => recLeB a b = true) ps) (hw : WFProps ps) :
    (liveCalls ps).Pairwise (fun x y => strCmp x.1 y.1 = .lt) := by
  have hcomb := List.Pairwise.and hsle hw
  refine List.Pairwise.filterMap _ ?_ hcomb
  rintro a b ⟨hle, hdist⟩ x hx y hy
  rcases a with ⟨an, av⟩
  cases an with
  | none => cases hx
  | some am =>
    cases av with
    | none => cases hx
    | some aw =>
      rcases b with ⟨bn, bv⟩
      cases bn with
      | none => cases hy
      | some bm =>
        cases bv with
        | none => cases hy
        | some bw =>
          injection hx with hx
          injection hy with hy
          subst hx
          subst hy
          have hle' : cmpOptStr (some am) (some bm) ≠ .gt := recLeB_iff.mp hle
          have hne : cmpOptStr (some am) (some bm) ≠ .eq := by
            intro he
            have := cmpOptStr_eq_iff.mp he
            injection this with this
            exact hdist am rfl (by rw [this])
          cases hcc : cmpOptStr (some am) (some bm) with
          | lt => exact hcc
          | eq => exact absurd hcc hne
          | gt => exact absurd hcc hle'

theorem liveCalls_names_pairwise {ps : PersistentProperties}
    (hsle : List.Sorted (fun a b => recLeB a b = true) ps) (hw : WFProps ps) :
    ((liveCalls ps).map Prod.fst).Pairwise (fun a b => strCmp a b = .lt) :=
  List.pairwise_map.mpr (liveCalls_pairwise hsle hw)

theorem get_prop_proto_eval {s : SysState} {ps : PersistentProperties}
    {g : String → Option String} (hc : s.container = some (.good ps))
    (hs : SortedNames ps)
    (hlive : ∀ q ∈ ps, ∃ m w, q = (⟨some m, some w⟩ : PersistentPropertyRecord))
    (hmem : ∀ m w, ((⟨some m, some w⟩ : PersistentPropertyRecord) ∈ ps ↔
      g m = some w)) (n : String) :
    (persist_get_prop n s).1 =
      match g n with
      | some v => [(n, v)]
      | none => [] := by
  have hsp : sortProps ps = ps := sortProps_eq_of_sortedNames hs
  rw [persist_get_prop_proto n hc, hsp]
  cases hg : g n with
  | some v =>
    rcases find_index_mem_ok (sortedNames_le hs)
        ⟨⟨some n, some v⟩, (hmem n v).mpr hg, rfl⟩ with ⟨idx, hfi⟩
    have hok := find_index_ok hfi
    have hmemidx : ps.getD idx default ∈ ps := by
      rw [List.getD_eq_getElem _ default hok.1]
      exact List.getElem_mem hok.1
    have hrec : ps.getD idx default =
        (⟨some n, some v⟩ : PersistentPropertyRecord) := by
      rcases hlive (ps.getD idx default) hmemidx with ⟨m, w, hm⟩
      have hname := hok.2
      rw [hm] at hname
      have hname' : some m = some n := hname
      injection hname' with hname'
      have hmm : g m = some w := (hmem m w).mp (by rw [← hm]; exact hmemidx)
      rw [hname', hg] at hmm
      injection hmm with hmm
      rw [hm, hname', ← hmm]
    rw [hfi]
    simp only [hrec]
  | none =>
    cases hfi : find_index ps n with
    | ok idx =>
      have hok := find_index_ok hfi
      have hmemidx : ps.getD idx default ∈ ps := by
        rw [List.getD_eq_getElem _ default hok.1]
        exact List.getElem_mem hok.1
      rcases hlive (ps.getD idx default) hmemidx with ⟨m, w, hm⟩
      have hname := hok.2
      rw [hm] at hname
      have hname' : some m = some n := hname
      injection hname' with hname'
      have hmm : g m = some w := (hmem m w).mp (by rw [← hm]; exact hmemidx)
      rw [hname', hg] at hmm
      cases hmm
    | error p =>
      rfl

theorem get_props_proto_eval {s : SysState} {ps : PersistentProperties}
    {g : String → Option String} (hc : s.container = some (.good ps))
    (hs : SortedNames ps)
    (hmem : ∀ m w, ((⟨some m, some w⟩ : PersistentPropertyRecord) ∈ ps ↔
      g m = some w)) :
    (∀ m w, ((m, w) ∈ (persist_get_props s).1 ↔ g m = some w)) ∧
    ((persist_get_props s).1.map Prod.fst).Nodup := by
  have hsp : sortProps ps = ps := sortProps_eq_of_sortedNames hs
  rw [persist_get_props_proto hc, hsp]
  constructor
  · intro m w
    rw [mem_liveCalls_iff]
    exact hmem m w
  · exact nodup_of_pairwise_strLt
      (liveCalls_names_pairwise (sortedNames_le hs) (sortedNames_wfProps hs))

theorem get_prop_flat_eval {s : SysState} {g : String → Option String}
    (hc : s.container = none) (hlk : ∀ m, lookupFlat s.flat m = g m)
    (n : String) :
    (persist_get_prop n s).1 =
      match g n with
      | some v => [(n, v)]
      | none => [] := by
  rw [persist_get_prop_flat n hc, hlk n]
  cases g n <;> rfl

theorem get_props_flat_eval {s : SysState} {g : String → Option String}
    (hc : s.container = none) (hnd : (s.flat.map Prod.fst).Nodup)
    (hlk : ∀ m, lookupFlat s.flat m = g m) :
    (∀ m w, ((m, w) ∈ (persist_get_props s).1 ↔ g m = some w)) ∧
    ((persist_get_props s).1.map Prod.fst).Nodup := by
  rw [persist_get_props_flat hc]
  constructor
  · intro m w
    show (m, w) ∈ s.flat.filterMap _ ↔ _
    rw [flatAll_eq hnd, mem_iff_lookupFlat hnd, hlk m]
  · show (List.map Prod.fst (s.flat.filterMap _)).Nodup
    rw [flatAll_eq hnd]
    exact hnd

/-!
Claim theorems.
-/

/-- C7: for every index sorted by name and every lookup name, find_index
returns Ok(i) exactly when the record at position i has that name, and on a
miss returns Err(p) where p is the unique insertion point such that inserting
the new record at p preserves the sorted order. -/
theorem claim_c7_find_index (ps : PersistentProperties) (n v : String)
    (hs : SortedNames ps) :
    (∀ idx, find_index ps n = .ok idx ↔
      idx < ps.length ∧ (ps.getD idx default).name = some n) ∧
    (∀ p, find_index ps n = .error p →
      p ≤ ps.length ∧
      (∀ j, j < ps.length → (ps.getD j default).name ≠ some n) ∧
      SortedNames (ps.insertIdx p ⟨some n, some v⟩) ∧
      (∀ q, q ≤ ps.length →
        SortedNames (ps.insertIdx q ⟨some n, some v⟩) → q = p)) := by
  constructor
  · intro idx
    exact find_index_ok_iff hs
  · intro p hp
    refine ⟨(find_index_err (sortedNames_le hs) hp).1, ?_,
      sortedNames_insertIdx v hs hp,
      fun q hq hqs => insert_point_unique hs hp hq hqs⟩
    intro j hj he
    have hm : ps.getD j default ∈ ps := by
      rw [List.getD_eq_getElem _ default hj]
      exact List.getElem_mem hj
    exact find_index_err_not_mem (sortedNames_le hs) hp _ hm he

/-- Witness for C7 at a concrete sorted index: a hit on the second record and
a miss with insertion point two. -/
theorem claim_c7_find_index_witness :
    SortedNames exPs ∧
    (find_index exPs "b" = .ok 1 ↔
      1 < exPs.length ∧ (exPs.getD 1 default).name = some "b") := by
  have hs : SortedNames exPs := by
    unfold SortedNames exPs
    refine List.Pairwise.cons ?_ (List.Pairwise.cons (fun c hc => nomatch hc)
      List.Pairwise.nil)
    intro q hq
    rcases List.mem_singleton.mp hq with rfl
    decide
  exact ⟨hs, (claim_c7_find_index exPs "b" "0" hs).1 1⟩

/-- C9: when set_prop overwrites an existing name in container mode, the
in-memory update changes only the value field of the matched record: the
record's name, every other position, and the length are unchanged. -/
theorem claim_c9_overwrite_frame (ps : PersistentProperties) (n v : String)
    (idx : Nat) (hf : find_index ps n = .ok idx) :
    (setValueAt ps idx v).length = ps.length ∧
    ((setValueAt ps idx v).getD idx default).name = (ps.getD idx default).name ∧
    ((setValueAt ps idx v).getD idx default).value = some v ∧
    (∀ j, j ≠ idx → (setValueAt ps idx v).getD j default = ps.getD j default) := by
  have hidx := (find_index_ok hf).1
  refine ⟨length_setValueAt ps idx v, ?_, ?_, ?_⟩
  · rw [getD_setValueAt_same v hidx]
  · rw [getD_setValueAt_same v hidx]
  · intro j hj
    exact @getD_setValueAt_other ps idx j v hj

/-- Witness for C9 at a concrete overwrite of the first record. -/
theorem claim_c9_overwrite_frame_witness :
    find_index exPs "a" = .ok 0 ∧
    ((setValueAt exPs 0 "9").length = exPs.length ∧
      ((setValueAt exPs 0 "9").getD 0 default).name = (exPs.getD 0 default).name ∧
      ((setValueAt exPs 0 "9").getD 0 default).value = some "9" ∧
      (∀ j, j ≠ 0 → (setValueAt exPs 0 "9").getD j default = exPs.getD j default)) :=
  ⟨by rfl, claim_c9_overwrite_frame exPs "a" "9" 0 (by rfl)⟩

/-- C10: a name or value that is not valid UTF-8 text makes the public set
and delete return false before any filesystem event, leaving the state
unchanged. -/
theorem claim_c10_invalid_text (rawName rawValue : List Nat) (f : FailSpec)
    (s : SysState) :
    (utf8Decode rawName = none →
      persist_set_prop_raw rawName rawValue f s = (false, s, []) ∧
      persist_delete_prop_raw rawName f s = (false, s, [])) ∧
    (utf8Decode rawValue = none →
      persist_set_prop_raw rawName rawValue f s = (false, s, [])) := by
  constructor
  · intro h
    unfold persist_set_prop_raw persist_delete_prop_raw
    rw [h]
    exact ⟨rfl, rfl⟩
  · intro h
    unfold persist_set_prop_raw
    cases utf8Decode rawName with
    | none => rfl
    | some nm => rw [h]

/-- Witness for C10 at a concrete non-UTF-8 byte buffer (a lone 0xFF byte). -/
theorem claim_c10_invalid_text_witness :
    utf8Decode [0xFF] = none ∧
    (persist_set_prop_raw [0xFF] [0x61] noFail stC = (false, stC, []) ∧
      persist_delete_prop_raw [0xFF] noFail stC = (false, stC, [])) :=
  ⟨by rfl, (claim_c10_invalid_text [0xFF] [0x61] noFail stC).1 (by rfl)⟩

/-- Counterexample for C8: the temporary file path computed by file_set_prop
is the flat-file directory path with suffix .prop.XXXXXX appended, which is a
sibling of the directory in /data, not a file inside /data/property as the
claim states. -/
theorem claim_c8_counterexample :
    mkstempPath flatTmpTemplate "abc123" = "/data/property.prop.abc123" ∧
    insideDir PERSIST_PROP_DIR (mkstempPath flatTmpTemplate "abc123") = false := by
  constructor
  · decide
  · decide

/-- C8 as amended: in flat-file mode, set_prop writes the value to a
uniquely-named temporary file whose path is the flat-file directory path with
.prop.XXXXXX appended — located in the parent directory /data, not inside the
flat-file directory — and then atomically renames it over dir/name, replacing
that directory entry. -/
theorem claim_c8_amended (suffix n v : String) (s : SysState)
    (hc : s.container = none) :
    (mkstempPath flatTmpTemplate suffix).data =
      "/data/property.prop.".data ++ suffix.data ∧
    insideDir PERSIST_PROP_DIR (mkstempPath flatTmpTemplate suffix) = false ∧
    flatTargetPath n = "/data/property/" ++ n ∧
    persist_set_prop n v noFail s =
      (true, { s with flat := setFlat s.flat n v },
        [.checkProto, .createTmpFlat, .writeTmpFlat, .renameFlat n]) := by
  have hdata : (mkstempPath flatTmpTemplate suffix).data =
      "/data/property.prop.".data ++ suffix.data := by
    show flatTmpTemplate.data.take (flatTmpTemplate.data.length - 6) ++ suffix.data
        = "/data/property.prop.".data ++ suffix.data
    have h20 : flatTmpTemplate.data.take (flatTmpTemplate.data.length - 6) =
        "/data/property.prop.".data := by decide
    rw [h20]
  refine ⟨hdata, ?_, ?_, ?_⟩
  · unfold insideDir
    rw [hdata]
    rw [← Bool.not_eq_true]
    intro hpre
    rw [ List.isPrefixOf_iff_prefix, List.prefix_iff_eq_take,
      List.take_append_eq_append_take] at hpre
    have hk : (PERSIST_PROP_DIR ++ "/").data.length -
        ("/data/property.prop.".data).length = 0 := by decide
    rw [hk, List.take_zero, List.append_nil] at hpre
    exact absurd hpre (by decide)
  · show PERSIST_PROP_DIR ++ "/" ++ n = "/data/property/" ++ n
    have h : PERSIST_PROP_DIR ++ "/" = "/data/property/" := by decide
    rw [h]
  · have hstep := persist_set_prop_flat n v noFail hc
    rw [file_set_prop_some_noFail] at hstep
    exact hstep

/-- Witness for the amended C8 at a concrete flat-mode state. -/
theorem claim_c8_amended_witness :
    stF.container = none ∧
    persist_set_prop "b" "2" noFail stF =
      (true, { stF with flat := setFlat stF.flat "b" "2" },
        [.checkProto, .createTmpFlat, .writeTmpFlat, .renameFlat "b"]) :=
  ⟨rfl, (claim_c8_amended "abc123" "b" "2" stF rfl).2.2.2⟩

theorem proto_mutate_fail_shape (X : PersistentProperties) {f : FailSpec}
    (s : SysState) (hmk : f.mkstempFail = false)
    (hfail : f.writeFail = true ∨ f.crashBeforeRename = true) :
    (match proto_write_props X f s with
      | (r, s', ev) =>
        ((exOk r : Bool), s', Ev.checkProto :: Ev.readContainer :: ev)) =
      ((false : Bool), { s with tmps := s.tmps + 1 },
        Ev.checkProto :: Ev.readContainer :: (proto_write_props X f s).2.2) := by
  have hw := proto_write_props_fail X s hmk hfail
  show ((exOk (proto_write_props X f s).1 : Bool),
      (proto_write_props X f s).2.1, _) = _
  rw [hw.1, hw.2]
  rfl

/-- Counterexample for C1: after an injected encode failure during a
container-mode set, the container is untouched but the temporary file is NOT
removed — it is left behind, so the post-state has one more leftover
temporary file than the pre-state. -/
theorem claim_c1_counterexample :
    (persist_set_prop "a" "1" failEncode protoEmptyState).2.1.container =
      protoEmptyState.container ∧
    (persist_set_prop "a" "1" failEncode protoEmptyState).2.1.tmps =
      protoEmptyState.tmps + 1 ∧
    ¬ ((persist_set_prop "a" "1" failEncode protoEmptyState).2.1.tmps =
      protoEmptyState.tmps) := by
  refine ⟨by decide, by decide, by decide⟩

/-- C1 as amended: for every container-mode set or delete that fails after
the temporary file has been created but before the final rename (encode
failure or simulated crash; an attribute-clone failure cannot abort the
operation since the source ignores its result), the operation reports
failure, the container file content and the flat directory are byte-identical
to their pre-operation state, and the temporary file is left behind
(abandoned), not removed. -/
theorem claim_c1_atomicity (s : SysState) (ps : PersistentProperties)
    (n v : String) (f : FailSpec) (hc : s.container = some (.good ps))
    (hmk : f.mkstempFail = false)
    (hfail : f.writeFail = true ∨ f.crashBeforeRename = true) :
    ((persist_set_prop n v f s).1 = false ∧
      (persist_set_prop n v f s).2.1 = { s with tmps := s.tmps + 1 }) ∧
    (∀ idx, find_index (sortProps ps) n = .ok idx →
      (persist_delete_prop n f s).1 = false ∧
      (persist_delete_prop n f s).2.1 = { s with tmps := s.tmps + 1 }) := by
  constructor
  · cases hfi : find_index (sortProps ps) n with
    | ok idx =>
      rw [persist_set_prop_proto_hit v f hc hfi,
        proto_mutate_fail_shape _ s hmk hfail]
      exact ⟨rfl, rfl⟩
    | error p =>
      rw [persist_set_prop_proto_miss v f hc hfi,
        proto_mutate_fail_shape _ s hmk hfail]
      exact ⟨rfl, rfl⟩
  · intro idx hfi
    rw [persist_delete_prop_proto_hit f hc hfi,
      proto_mutate_fail_shape _ s hmk hfail]
    exact ⟨rfl, rfl⟩

/-- Witness for the amended C1: an injected encode failure and a simulated
crash before rename on a concrete container-mode state. -/
theorem claim_c1_atomicity_witness :
    (stC.container = some (.good exPs) ∧ failEncode.mkstempFail = false ∧
      failEncode.writeFail = true) ∧
    ((persist_set_prop "a" "9" failEncode stC).1 = false ∧
      (persist_set_prop "a" "9" failEncode stC).2.1 =
        { stC with tmps := stC.tmps + 1 }) ∧
    ((persist_delete_prop "a" failCrash stC).1 = false ∧
      (persist_delete_prop "a" failCrash stC).2.1 =
        { stC with tmps := stC.tmps + 1 }) :=
  ⟨⟨rfl, rfl, rfl⟩,
    (claim_c1_atomicity stC exPs "a" "9" failEncode rfl rfl (Or.inl rfl)).1,
    (claim_c1_atomicity stC exPs "a" "9" failCrash rfl rfl (Or.inr rfl)).2 0
      (by rfl)⟩

theorem file_set_prop_shape (n : String) (v : Option String) (f : FailSpec)
    (s : SysState) :
    (file_set_prop n v f s).2.1.container = s.container ∧
    (file_set_prop n v f s).2.1.tmps = s.tmps := by
  cases v with
  | some v =>
    rcases f with ⟨mk, wf, cr⟩
    cases mk <;> cases wf <;> cases cr <;> exact ⟨rfl, rfl⟩
  | none =>
    unfold file_set_prop
    cases lookupFlat s.flat n with
    | some v => exact ⟨rfl, rfl⟩
    | none => exact ⟨rfl, rfl⟩

/-- Counterexample for C4: with no container file present, a set succeeds via
the flat-file backend and does NOT create the container file — afterwards the
container is still absent and the single new property lives in the flat
directory, not in a newly created container holding the record. -/
theorem claim_c4_counterexample :
    (persist_set_prop "a" "1" noFail flatEmptyState).1 = true ∧
    (persist_set_prop "a" "1" noFail flatEmptyState).2.1.flat = [("a", "1")] ∧
    (persist_set_prop "a" "1" noFail flatEmptyState).2.1.container ≠
      some (.good [⟨some "a", some "1"⟩]) := by
  refine ⟨by decide, by decide, by decide⟩

/-- C4 as amended: the container branch of set is gated by the existence
check, so when the container file does not exist the set is handled entirely
by the flat-file backend (the container file is not created and no empty
index is synthesized), and when decoding fails on an existing container the
set aborts with failure and an unchanged state — there is no empty-index
fallback in either case. -/
theorem claim_c4_no_empty_index_fallback (n v : String) (f : FailSpec)
    (s : SysState) :
    (s.container = none →
      persist_set_prop n v f s =
        (match file_set_prop n (some v) f s with
          | (r, s', ev) => (exOk r, s', .checkProto :: ev)) ∧
      (persist_set_prop n v f s).2.1.container = none ∧
      (f = noFail →
        (persist_set_prop n v f s).1 = true ∧
        (persist_set_prop n v f s).2.1.flat = setFlat s.flat n v)) ∧
    (s.container = some .corrupt →
      persist_set_prop n v f s = (false, s, [.checkProto, .readContainer])) := by
  constructor
  · intro hc
    have hflat := persist_set_prop_flat n v f hc
    refine ⟨hflat, ?_, ?_⟩
    · rw [hflat]
      show (file_set_prop n (some v) f s).2.1.container = none
      rw [(file_set_prop_shape n (some v) f s).1]
      exact hc
    · intro hfe
      subst hfe
      rw [hflat, file_set_prop_some_noFail]
      exact ⟨rfl, rfl⟩
  · intro hc
    exact persist_set_prop_corrupt n v f hc

/-- Witness for the amended C4: a concrete set on the empty flat-mode state
and a concrete set on a corrupt container. -/
theorem claim_c4_no_empty_index_fallback_witness :
    (flatEmptyState.container = none ∧
      (persist_set_prop "a" "1" noFail flatEmptyState).2.1.container = none) ∧
    persist_set_prop "a" "1" noFail
        (⟨some .corrupt, [], 0, 0⟩ : SysState) =
      (false, ⟨some .corrupt, [], 0, 0⟩, [.checkProto, .readContainer]) :=
  ⟨⟨rfl, ((claim_c4_no_empty_index_fallback "a" "1" noFail flatEmptyState).1
      rfl).2.1⟩,
    (claim_c4_no_empty_index_fallback "a" "1" noFail
      (⟨some .corrupt, [], 0, 0⟩ : SysState)).2 rfl⟩

/-- C2: starting from an empty store (in either representation), after any
finite sequence of persist_set_prop writes — in any order, possibly
overwriting names — every write commits successfully, persist_get_prop on
each name reports exactly the last value written for that name, and
persist_get_props reports exactly the written pairs (last value per name,
no duplicate names).  The read-back depends only on the last write per name,
hence is independent of insertion order. -/
theorem claim_c2_round_trip (ws : List (String × String)) (n : String) :
    ((runSetsOk ws protoEmptyState).1 = true ∧
      (persist_get_prop n (runSets ws protoEmptyState)).1 =
        (match lastVal ws n with
          | some v => [(n, v)]
          | none => []) ∧
      (∀ m v, ((m, v) ∈ (persist_get_props (runSets ws protoEmptyState)).1 ↔
        lastVal ws m = some v)) ∧
      ((persist_get_props (runSets ws protoEmptyState)).1.map Prod.fst).Nodup) ∧
    ((runSetsOk ws flatEmptyState).1 = true ∧
      (persist_get_prop n (runSets ws flatEmptyState)).1 =
        (match lastVal ws n with
          | some v => [(n, v)]
          | none => []) ∧
      (∀ m v, ((m, v) ∈ (persist_get_props (runSets ws flatEmptyState)).1 ↔
        lastVal ws m = some v)) ∧
      ((persist_get_props (runSets ws flatEmptyState)).1.map Prod.fst).Nodup) := by
  obtain ⟨hok, ps, hc, hs, hlive, hmem⟩ := runSets_proto_inv ws
  obtain ⟨hokf, hcf, hndf, hlkf⟩ := runSets_flat_inv ws
  have hprops := get_props_proto_eval hc hs hmem
  have hpropsf := get_props_flat_eval hcf hndf hlkf
  exact ⟨⟨hok, get_prop_proto_eval hc hs hlive hmem n, hprops.1, hprops.2⟩,
    ⟨hokf, get_prop_flat_eval hcf hlkf n, hpropsf.1, hpropsf.2⟩⟩

theorem proto_write_props_state (X : PersistentProperties) (f : FailSpec)
    (s : SysState) :
    (proto_write_props X f s).2.1 = s ∨
    (proto_write_props X f s).2.1 = { s with tmps := s.tmps + 1 } ∨
    (proto_write_props X f s).2.1 = { s with container := some (.good X) } := by
  rcases f with ⟨mk, wf, cr⟩
  cases mk with
  | true => exact Or.inl rfl
  | false =>
    cases wf with
    | true => exact Or.inr (Or.inl rfl)
    | false =>
      cases cr with
      | true => exact Or.inr (Or.inl rfl)
      | false => exact Or.inr (Or.inr rfl)

theorem runMut_wf {s : SysState} {ps : PersistentProperties}
    (hc : s.container = some (.good ps)) (hw : WFProps ps)
    (m : MutOp × FailSpec) :
    ∃ ps', (runMut m s).container = some (.good ps') ∧ WFProps ps' := by
  rcases m with ⟨op, f⟩
  cases op with
  | set n v =>
    show ∃ ps', (persist_set_prop n v f s).2.1.container = some (.good ps') ∧
      WFProps ps'
    cases hfi : find_index (sortProps ps) n with
    | ok idx =>
      rw [persist_set_prop_proto_hit v f hc hfi]
      show ∃ ps',
        (proto_write_props (setValueAt (sortProps ps) idx v) f s).2.1.container
          = some (.good ps') ∧ WFProps ps'
      have hidx := (find_index_ok hfi).1
      rcases proto_write_props_state (setValueAt (sortProps ps) idx v) f s
        with h | h | h <;> rw [h]
      · exact ⟨ps, hc, hw⟩
      · exact ⟨ps, hc, hw⟩
      · exact ⟨setValueAt (sortProps ps) idx v, rfl,
          wfProps_setValueAt v (wfProps_sortProps hw) hidx⟩
    | error p =>
      rw [persist_set_prop_proto_miss v f hc hfi]
      show ∃ ps',
        (proto_write_props ((sortProps ps).insertIdx p ⟨some n, some v⟩) f
          s).2.1.container = some (.good ps') ∧ WFProps ps'
      rcases proto_write_props_state
          ((sortProps ps).insertIdx p ⟨some n, some v⟩) f s
        with h | h | h <;> rw [h]
      · exact ⟨ps, hc, hw⟩
      · exact ⟨ps, hc, hw⟩
      · exact ⟨(sortProps ps).insertIdx p ⟨some n, some v⟩, rfl,
          wfProps_insertIdx v (wfProps_sortProps hw) (sortProps_sorted ps) hfi⟩
  | del n =>
    show ∃ ps', (persist_delete_prop n f s).2.1.container = some (.good ps') ∧
      WFProps ps'
    cases hfi : find_index (sortProps ps) n with
    | ok idx =>
      rw [persist_delete_prop_proto_hit f hc hfi]
      show ∃ ps',
        (proto_write_props ((sortProps ps).eraseIdx idx) f s).2.1.container
          = some (.good ps') ∧ WFProps ps'
      rcases proto_write_props_state ((sortProps ps).eraseIdx idx) f s
        with h | h | h <;> rw [h]
      · exact ⟨ps, hc, hw⟩
      · exact ⟨ps, hc, hw⟩
      · exact ⟨(sortProps ps).eraseIdx idx, rfl,
          wfProps_eraseIdx (wfProps_sortProps hw)⟩
    | error p =>
      rw [persist_delete_prop_proto_miss f hc hfi]
      exact ⟨ps, hc, hw⟩

theorem runMuts_wf (ops : List (MutOp × FailSpec)) {s : SysState}
    {ps : PersistentProperties} (hc : s.container = some (.good ps))
    (hw : WFProps ps) :
    ∃ ps', (runMuts ops s).container = some (.good ps') ∧ WFProps ps' := by
  induction ops using List.reverseRecOn with
  | nil => exact ⟨ps, hc, hw⟩
  | append_singleton ops m ih =>
    rcases ih with ⟨ps', hc', hw'⟩
    rw [runMuts_append]
    exact runMut_wf hc' hw' m

/-- Counterexample for C3: a decodable container whose records carry the same
name twice ("a" with two different values) makes a full enumeration (after
the empty sequence of operations) invoke the callback with the name "a"
twice — the names are not duplicate-free, refuting the claim for arbitrary
decodable containers. -/
theorem claim_c3_counterexample :
    ((persist_get_props (runMuts [] stDupC)).1.map Prod.fst) = ["a", "a"] ∧
    ¬ ((persist_get_props (runMuts [] stDupC)).1.map Prod.fst).Nodup := by
  refine ⟨by decide, by decide⟩

/-- C3 as amended: in container mode, starting from any decodable container
whose records carry pairwise distinct present names, after any sequence of
set_prop and delete_prop operations (under any injected-failure environment)
the container still decodes to records with pairwise distinct present names,
and a full enumeration invokes the callback in strictly increasing
byte-lexicographic name order with no duplicate names. -/
theorem claim_c3_sorted_enumeration (ops : List (MutOp × FailSpec))
    (s0 : SysState) (ps0 : PersistentProperties)
    (hc0 : s0.container = some (.good ps0)) (hw0 : WFProps ps0) :
    ∃ ps, (runMuts ops s0).container = some (.good ps) ∧ WFProps ps ∧
      ((persist_get_props (runMuts ops s0)).1.map Prod.fst).Pairwise
        (fun a b => strCmp a b = .lt) ∧
      ((persist_get_props (runMuts ops s0)).1.map Prod.fst).Nodup := by
  rcases runMuts_wf ops hc0 hw0 with ⟨ps, hc, hw⟩
  refine ⟨ps, hc, hw, ?_⟩
  rw [persist_get_props_proto hc]
  have hpair := liveCalls_names_pairwise (sortProps_sorted ps)
    (wfProps_sortProps hw)
  exact ⟨hpair, nodup_of_pairwise_strLt hpair⟩

/-- Witness for the amended C3: one concrete set and one concrete delete on
a concrete well-formed container. -/
theorem claim_c3_sorted_enumeration_witness :
    (stC.container = some (.good exPs) ∧ WFProps exPs) ∧
    ∃ ps,
      (runMuts [(MutOp.set "c" "3", noFail), (MutOp.del "a", noFail)]
        stC).container = some (.good ps) ∧ WFProps ps ∧
      ((persist_get_props
          (runMuts [(MutOp.set "c" "3", noFail), (MutOp.del "a", noFail)]
            stC)).1.map Prod.fst).Pairwise (fun a b => strCmp a b = .lt) ∧
      ((persist_get_props
          (runMuts [(MutOp.set "c" "3", noFail), (MutOp.del "a", noFail)]
            stC)).1.map Prod.fst).Nodup := by
  have hw : WFProps exPs := by
    unfold WFProps exPs
    refine List.Pairwise.cons ?_
      (List.Pairwise.cons (fun c hc => nomatch hc) List.Pairwise.nil)
    intro q hq
    rcases List.mem_singleton.mp hq with rfl
    intro n h1 h2
    have h1' : (some "a" : Option String) = some n := h1
    have h2' : (some "b" : Option String) = some n := h2
    exact absurd (h1'.trans h2'.symm) (by decide)
  exact ⟨⟨rfl, hw⟩,
    claim_c3_sorted_enumeration
      [(MutOp.set "c" "3", noFail), (MutOp.del "a", noFail)] stC exPs rfl hw⟩

theorem present_none_iff {s : SysState} (hc : s.container = none) (n : String) :
    present s n ↔ (lookupFlat s.flat n).isSome = true := by
  unfold present
  rw [hc]

theorem present_good_iff {s : SysState} {ps : PersistentProperties}
    (hc : s.container = some (.good ps)) (n : String) :
    present s n ↔ ∃ p ∈ ps, p.name = some n := by
  unfold present
  rw [hc]

theorem proto_write_exOk_true {X : PersistentProperties} {f : FailSpec}
    {s : SysState} (h : exOk (proto_write_props X f s).1 = true) :
    (proto_write_props X f s).2.1 = { s with container := some (.good X) } := by
  rcases f with ⟨mk, wf, cr⟩
  cases mk <;> cases wf <;> cases cr <;>
    first
    | rfl
    | exact Bool.noConfusion h

theorem erase_hit_not_present {qs : PersistentProperties} {idx : Nat}
    {n : String} (hw : WFProps qs) (hidx : idx < qs.length)
    (hname : (qs.getD idx default).name = some n) :
    ∀ q ∈ qs.eraseIdx idx, q.name ≠ some n := by
  intro q hq he
  rcases List.mem_iff_getElem.mp hq with ⟨j, hj, hje⟩
  have hj2 : j < qs.length - 1 := by
    have hcopy := hj
    rw [List.length_eraseIdx, if_pos hidx] at hcopy
    exact hcopy
  have hget := List.getElem_eraseIdx qs idx j hj
  by_cases hji : j < idx
  · rw [dif_pos hji, hje] at hget
    have hp := List.pairwise_iff_getElem.mp hw j idx (by omega) hidx hji
    apply hp n
    · rw [← hget]
      exact he
    · rw [← List.getD_eq_getElem _ default hidx]
      exact hname
  · rw [dif_neg hji, hje] at hget
    have hp := List.pairwise_iff_getElem.mp hw idx (j + 1) hidx (by omega)
      (by omega)
    apply hp n
    · rw [← List.getD_eq_getElem _ default hidx]
      exact hname
    · rw [← hget]
      exact he

theorem delete_not_present {s : SysState} {n : String} (f : FailSpec)
    (hnp : ¬ present s n) :
    (persist_delete_prop n f s).1 = false ∧
    (persist_delete_prop n f s).2.1 = s := by
  cases hcs : s.container with
  | none =>
    have hl : lookupFlat s.flat n = none := by
      cases hl : lookupFlat s.flat n with
      | none => rfl
      | some v =>
        exact absurd ((present_none_iff hcs n).mpr (by rw [hl]; rfl)) hnp
    have hfs : file_set_prop n none f s = (.error (), s, [.unlinkFlat n]) := by
      unfold file_set_prop
      rw [hl]
    rw [persist_delete_prop_flat n f hcs, hfs]
    exact ⟨rfl, rfl⟩
  | some cd =>
    cases cd with
    | corrupt =>
      rw [persist_delete_prop_corrupt n f hcs]
      exact ⟨rfl, rfl⟩
    | good ps =>
      cases hfi : find_index (sortProps ps) n with
      | ok idx =>
        have hok := find_index_ok hfi
        have hmm : (sortProps ps).getD idx default ∈ sortProps ps := by
          rw [List.getD_eq_getElem _ default hok.1]
          exact List.getElem_mem hok.1
        have hin : present s n := by
          rw [present_good_iff hcs n]
          exact ⟨(sortProps ps).getD idx default,
            (sortProps_perm ps).subset hmm, hok.2⟩
        exact absurd hin hnp
      | error p =>
        rw [persist_delete_prop_proto_miss f hcs hfi]
        exact ⟨rfl, rfl⟩

/-- C5: deleting a name that is not present in the durable store fails and
leaves the store unchanged (in container mode no write-back happens on a
miss), and after a successful delete a second delete of the same name fails
and leaves the store unchanged, for any well-formed store state. -/
theorem claim_c5_delete_semantics (s : SysState) (n : String) (f f₂ : FailSpec)
    (hwf : WFState s) :
    (¬ present s n →
      (persist_delete_prop n f s).1 = false ∧
      (persist_delete_prop n f s).2.1 = s) ∧
    ((persist_delete_prop n f s).1 = true →
      (persist_delete_prop n f₂ ((persist_delete_prop n f s).2.1)).1 = false ∧
      (persist_delete_prop n f₂ ((persist_delete_prop n f s).2.1)).2.1 =
        (persist_delete_prop n f s).2.1) := by
  constructor
  · intro hnp
    exact delete_not_present f hnp
  · intro htrue
    refine delete_not_present f₂ ?_
    cases hcs : s.container with
    | none =>
      have hflat := persist_delete_prop_flat n f hcs
      rw [hflat] at htrue ⊢
      cases hl : lookupFlat s.flat n with
      | none =>
        have hfs : file_set_prop n none f s = (.error (), s, [.unlinkFlat n]) := by
          unfold file_set_prop
          rw [hl]
        rw [hfs] at htrue
        exact Bool.noConfusion htrue
      | some v =>
        have hfs : file_set_prop n none f s =
            (.ok (), { s with flat := removeFlat s.flat n }, [.unlinkFlat n]) := by
          unfold file_set_prop
          rw [hl]
        rw [hfs]
        have hc' : ({ s with flat := removeFlat s.flat n } : SysState).container
            = none := hcs
        rw [present_none_iff hc' n]
        show ¬ (lookupFlat (removeFlat s.flat n) n).isSome = true
        rw [lookupFlat_removeFlat, if_pos rfl]
        intro hcon
        cases hcon
    | some cd =>
      cases cd with
      | corrupt =>
        rw [persist_delete_prop_corrupt n f hcs] at htrue
        exact Bool.noConfusion htrue
      | good ps =>
        have hwp : WFProps ps := by
          unfold WFState at hwf
          rw [hcs] at hwf
          exact hwf
        cases hfi : find_index (sortProps ps) n with
        | error p =>
          rw [persist_delete_prop_proto_miss f hcs hfi] at htrue
          exact Bool.noConfusion htrue
        | ok idx =>
          rw [persist_delete_prop_proto_hit f hcs hfi] at htrue ⊢
          have htrue' : exOk
              (proto_write_props ((sortProps ps).eraseIdx idx) f s).1 = true :=
            htrue
          have hshape := proto_write_exOk_true htrue'
          show ¬ present
            (proto_write_props ((sortProps ps).eraseIdx idx) f s).2.1 n
          rw [hshape]
          have hc' : ({ s with
              container := some (.good ((sortProps ps).eraseIdx idx)) }
                : SysState).container
              = some (.good ((sortProps ps).eraseIdx idx)) := rfl
          rw [present_good_iff hc' n]
          rintro ⟨q, hq, he⟩
          exact erase_hit_not_present (wfProps_sortProps hwp)
            (find_index_ok hfi).1 (find_index_ok hfi).2 q hq he

/-- Witness for C5 on a concrete container store: deleting an absent name
fails and changes nothing, and after a successful delete of a present name a
second delete of the same name fails. -/
theorem claim_c5_delete_semantics_witness :
    (WFState stC ∧ ¬ present stC "zz" ∧
      (persist_delete_prop "zz" noFail stC).1 = false ∧
      (persist_delete_prop "zz" noFail stC).2.1 = stC) ∧
    ((persist_delete_prop "a" noFail stC).1 = true ∧
      (persist_delete_prop "a" noFail
        ((persist_delete_prop "a" noFail stC).2.1)).1 = false) := by
  have hwf : WFState stC := by
    show WFProps exPs
    unfold WFProps exPs
    refine List.Pairwise.cons ?_
      (List.Pairwise.cons (fun c hc => nomatch hc) List.Pairwise.nil)
    intro q hq
    rcases List.mem_singleton.mp hq with rfl
    intro n h1 h2
    have h1' : (some "a" : Option String) = some n := h1
    have h2' : (some "b" : Option String) = some n := h2
    exact absurd (h1'.trans h2'.symm) (by decide)
  have hnp : ¬ present stC "zz" := by
    show ¬ ∃ p ∈ exPs, p.name = some "zz"
    decide
  refine ⟨⟨hwf, hnp, (claim_c5_delete_semantics stC "zz" noFail noFail hwf).1 hnp⟩,
    by decide, ((claim_c5_delete_semantics stC "a" noFail noFail hwf).2
      (by decide)).1⟩

theorem persist_get_prop_trace_proto {s : SysState} {cd : ContainerData}
    (hc : s.container = some cd) (n : String) :
    (persist_get_prop n s).2 = [.checkProto, .readContainer] := by
  cases cd with
  | corrupt => rw [persist_get_prop_corrupt n hc]
  | good ps =>
    rw [persist_get_prop_proto n hc]
    split
    · split <;> rfl
    · rfl

theorem persist_get_prop_trace_flat {s : SysState} (hc : s.container = none)
    (n : String) :
    (persist_get_prop n s).2 = [.checkProto, .readFlat n] := by
  rw [persist_get_prop_flat n hc]
  cases lookupFlat s.flat n <;> rfl

theorem persist_get_props_trace_proto {s : SysState} {cd : ContainerData}
    (hc : s.container = some cd) :
    (persist_get_props s).2 = [.checkProto, .readContainer] := by
  cases cd with
  | corrupt => rw [persist_get_props_corrupt hc]
  | good ps => rw [persist_get_props_proto hc]

theorem proto_write_props_frame (X : PersistentProperties) (f : FailSpec)
    (s : SysState) :
    (∀ e ∈ (proto_write_props X f s).2.2, e.isFlat = false) ∧
    (proto_write_props X f s).2.1.flat = s.flat ∧
    (proto_write_props X f s).2.1.flatTmps = s.flatTmps := by
  rcases f with ⟨mk, wf, cr⟩
  cases mk <;> cases wf <;> cases cr <;>
    refine ⟨?_, rfl, rfl⟩ <;>
      (intro e he
       fin_cases he <;> rfl)

theorem file_set_prop_events (n : String) (v : Option String) (f : FailSpec)
    (s : SysState) :
    ∀ e ∈ (file_set_prop n v f s).2.2, e.isCont = false := by
  cases v with
  | some v =>
    rcases f with ⟨mk, wf, cr⟩
    cases mk <;> cases wf <;> cases cr <;>
      (intro e he
       fin_cases he <;> rfl)
  | none =>
    unfold file_set_prop
    cases lookupFlat s.flat n <;>
      (intro e he
       fin_cases he <;> rfl)

theorem persist_set_prop_frame_proto {s : SysState} {cd : ContainerData}
    (hc : s.container = some cd) (n v : String) (f : FailSpec) :
    (∀ e ∈ (persist_set_prop n v f s).2.2, e.isFlat = false) ∧
    (persist_set_prop n v f s).2.1.flat = s.flat ∧
    (persist_set_prop n v f s).2.1.flatTmps = s.flatTmps ∧
    (persist_set_prop n v f s).2.2.head? = some .checkProto := by
  cases cd with
  | corrupt =>
    rw [persist_set_prop_corrupt n v f hc]
    refine ⟨?_, rfl, rfl, rfl⟩
    intro e he
    fin_cases he <;> rfl
  | good ps =>
    have hcore : ∀ X : PersistentProperties,
        (∀ e ∈ (match proto_write_props X f s with
          | (r, s', ev) =>
            ((exOk r : Bool), s', Ev.checkProto :: Ev.readContainer :: ev)).2.2,
          e.isFlat = false) ∧
        (match proto_write_props X f s with
          | (r, s', ev) =>
            ((exOk r : Bool), s', Ev.checkProto :: Ev.readContainer :: ev)).2.1.flat
          = s.flat ∧
        (match proto_write_props X f s with
          | (r, s', ev) =>
            ((exOk r : Bool), s', Ev.checkProto :: Ev.readContainer :: ev)).2.1.flatTmps
          = s.flatTmps ∧
        (match proto_write_props X f s with
          | (r, s', ev) =>
            ((exOk r : Bool), s', Ev.checkProto :: Ev.readContainer :: ev)).2.2.head?
          = some .checkProto := by
      intro X
      have hfr := proto_write_props_frame X f s
      refine ⟨?_, hfr.2.1, hfr.2.2, rfl⟩
      intro e he
      rcases List.mem_cons.mp he with rfl | he
      · rfl
      rcases List.mem_cons.mp he with rfl | he
      · rfl
      exact hfr.1 e he
    cases hfi : find_index (sortProps ps) n with
    | ok idx =>
      rw [persist_set_prop_proto_hit v f hc hfi]
      exact hcore _
    | error p =>
      rw [persist_set_prop_proto_miss v f hc hfi]
      exact hcore _

theorem persist_delete_prop_frame_proto {s : SysState} {cd : ContainerData}
    (hc : s.container = some cd) (n : String) (f : FailSpec) :
    (∀ e ∈ (persist_delete_prop n f s).2.2, e.isFlat = false) ∧
    (persist_delete_prop n f s).2.1.flat = s.flat ∧
    (persist_delete_prop n f s).2.1.flatTmps = s.flatTmps ∧
    (persist_delete_prop n f s).2.2.head? = some .checkProto := by
  cases cd with
  | corrupt =>
    rw [persist_delete_prop_corrupt n f hc]
    refine ⟨?_, rfl, rfl, rfl⟩
    intro e he
    fin_cases he <;> rfl
  | good ps =>
    cases hfi : find_index (sortProps ps) n with
    | ok idx =>
      rw [persist_delete_prop_proto_hit f hc hfi]
      have hfr := proto_write_props_frame ((sortProps ps).eraseIdx idx) f s
      refine ⟨?_, hfr.2.1, hfr.2.2, rfl⟩
      intro e he
      rcases List.mem_cons.mp he with rfl | he
      · rfl
      rcases List.mem_cons.mp he with rfl | he
      · rfl
      exact hfr.1 e he
    | error p =>
      rw [persist_delete_prop_proto_miss f hc hfi]
      refine ⟨?_, rfl, rfl, rfl⟩
      intro e he
      fin_cases he <;> rfl

theorem persist_set_prop_frame_flat {s : SysState} (hc : s.container = none)
    (n v : String) (f : FailSpec) :
    (∀ e ∈ (persist_set_prop n v f s).2.2, e.isCont = false) ∧
    (persist_set_prop n v f s).2.1.container = s.container ∧
    (persist_set_prop n v f s).2.1.tmps = s.tmps ∧
    (persist_set_prop n v f s).2.2.head? = some .checkProto := by
  rw [persist_set_prop_flat n v f hc]
  have hsh := file_set_prop_shape n (some v) f s
  have hev := file_set_prop_events n (some v) f s
  refine ⟨?_, hsh.1, hsh.2, rfl⟩
  intro e he
  rcases List.mem_cons.mp he with rfl | he
  · rfl
  exact hev e he

theorem persist_delete_prop_frame_flat {s : SysState} (hc : s.container = none)
    (n : String) (f : FailSpec) :
    (∀ e ∈ (persist_delete_prop n f s).2.2, e.isCont = false) ∧
    (persist_delete_prop n f s).2.1.container = s.container ∧
    (persist_delete_prop n f s).2.1.tmps = s.tmps ∧
    (persist_delete_prop n f s).2.2.head? = some .checkProto := by
  rw [persist_delete_prop_flat n f hc]
  have hsh := file_set_prop_shape n none f s
  have hev := file_set_prop_events n none f s
  refine ⟨?_, hsh.1, hsh.2, rfl⟩
  intro e he
  rcases List.mem_cons.mp he with rfl | he
  · rfl
  exact hev e he

theorem persist_get_props_events_flat {s : SysState} (hc : s.container = none) :
    ∀ e ∈ (persist_get_props s).2, e.isCont = false := by
  rw [persist_get_props_flat hc]
  intro e he
  rcases List.mem_cons.mp he with rfl | he
  · rfl
  rcases List.mem_cons.mp he with rfl | he
  · rfl
  rcases List.mem_map.mp he with ⟨x, _, rfl⟩
  rfl

/-- C6: every public operation re-evaluates the mode predicate at call time
(its event trace begins with the container-existence check); when the
container file exists the operation performs no flat-file event and leaves
the flat directory (and its temp-file count) untouched, and when the
container file does not exist the operation performs no container-data event
and leaves the container (and its temp-file count) untouched. -/
theorem claim_c6_mode_exclusivity (op : POp) (f : FailSpec) (s : SysState) :
    (runOp op f s).trace.head? = some .checkProto ∧
    (check_proto s = true →
      (∀ e ∈ (runOp op f s).trace, e.isFlat = false) ∧
      (runOp op f s).state.flat = s.flat ∧
      (runOp op f s).state.flatTmps = s.flatTmps) ∧
    (check_proto s = false →
      (∀ e ∈ (runOp op f s).trace, e.isCont = false) ∧
      (runOp op f s).state.container = s.container ∧
      (runOp op f s).state.tmps = s.tmps) := by
  cases hcs : s.container with
  | some cd =>
    have hct : check_proto s = true := check_proto_some hcs
    refine ⟨?_, ?_, ?_⟩
    · cases op with
      | getProp n =>
        show (persist_get_prop n s).2.head? = some .checkProto
        rw [persist_get_prop_trace_proto hcs n]
        rfl
      | getAll =>
        show (persist_get_props s).2.head? = some .checkProto
        rw [persist_get_props_trace_proto hcs]
        rfl
      | setProp n v =>
        exact (persist_set_prop_frame_proto hcs n v f).2.2.2
      | deleteProp n =>
        exact (persist_delete_prop_frame_proto hcs n f).2.2.2
    · intro _
      cases op with
      | getProp n =>
        refine ⟨?_, rfl, rfl⟩
        show ∀ e ∈ (persist_get_prop n s).2, e.isFlat = false
        rw [persist_get_prop_trace_proto hcs n]
        intro e he
        fin_cases he <;> rfl
      | getAll =>
        refine ⟨?_, rfl, rfl⟩
        show ∀ e ∈ (persist_get_props s).2, e.isFlat = false
        rw [persist_get_props_trace_proto hcs]
        intro e he
        fin_cases he <;> rfl
      | setProp n v =>
        have h := persist_set_prop_frame_proto hcs n v f
        exact ⟨h.1, h.2.1, h.2.2.1⟩
      | deleteProp n =>
        have h := persist_delete_prop_frame_proto hcs n f
        exact ⟨h.1, h.2.1, h.2.2.1⟩
    · intro hcf
      rw [hct] at hcf
      exact Bool.noConfusion hcf
  | none =>
    have hcf : check_proto s = false := check_proto_none hcs
    refine ⟨?_, ?_, ?_⟩
    · cases op with
      | getProp n =>
        show (persist_get_prop n s).2.head? = some .checkProto
        rw [persist_get_prop_trace_flat hcs n]
        rfl
      | getAll =>
        show (persist_get_props s).2.head? = some .checkProto
        rw [persist_get_props_flat hcs]
        rfl
      | setProp n v =>
        exact (persist_set_prop_frame_flat hcs n v f).2.2.2
      | deleteProp n =>
        exact (persist_delete_prop_frame_flat hcs n f).2.2.2
    · intro hcc
      rw [hcf] at hcc
      exact Bool.noConfusion hcc
    · intro _
      cases op with
      | getProp n =>
        refine ⟨?_, hcs, rfl⟩
        show ∀ e ∈ (persist_get_prop n s).2, e.isCont = false
        rw [persist_get_prop_trace_flat hcs n]
        intro e he
        fin_cases he <;> rfl
      | getAll =>
        exact ⟨persist_get_props_events_flat hcs, hcs, rfl⟩
      | setProp n v =>
        have h := persist_set_prop_frame_flat hcs n v f
        exact ⟨h.1, h.2.1.trans hcs, h.2.2.1⟩
      | deleteProp n =>
        have h := persist_delete_prop_frame_flat hcs n f
        exact ⟨h.1, h.2.1.trans hcs, h.2.2.1⟩

/-- Witness for C6: a concrete set in container mode leaves the flat
directory untouched, and a concrete set in flat mode leaves the container
untouched. -/
theorem claim_c6_mode_exclusivity_witness :
    (check_proto stC = true ∧
      (runOp (POp.setProp "c" "3") noFail stC).state.flat = stC.flat) ∧
    (check_proto stF = false ∧
      (runOp (POp.setProp "c" "3") noFail stF).state.container =
        stF.container) :=
  ⟨⟨rfl, ((claim_c6_mode_exclusivity (POp.setProp "c" "3") noFail stC).2.1
      rfl).2.1⟩,
    ⟨rfl, ((claim_c6_mode_exclusivity (POp.setProp "c" "3") noFail stF).2.2
      rfl).2.1⟩⟩
